import Mathlib

/-!
Verification of the maze generator and geometry pipeline of the
`mazemas-2025` repository (src/lib/mazeGenerator.ts, src/lib/clipperUtils.ts).

Numbers: JavaScript floats are modelled as exact rationals (every IEEE float
is a rational); geometric quantities involving `Math.PI`, `Math.cos`, `Math.sin`
are modelled over the reals.  The seeded PRNG `Math.sin(seedValue++) * 10000`
produces an opaque stream of float values; it is modelled as an abstract
stream `sinStream : Nat -> Rat` of rationals, to which the source's
`x - Math.floor(x)` step is applied literally.
-/

namespace Mazemas

/-- JavaScript `Math.round` on rationals: `Math.round x = ⌊x + 1/2⌋`. -/
def jsRound (q : ℚ) : ℤ := ⌊q + 1/2⌋

/-- The fractional-part step of the PRNG: `x - Math.floor(x)` (source line 10). -/
def jsFract (x : ℚ) : ℚ := x - ⌊x⌋

theorem jsFract_nonneg (x : ℚ) : 0 ≤ jsFract x := by
  simp only [jsFract, sub_nonneg]
  exact Int.floor_le x

theorem jsFract_lt_one (x : ℚ) : jsFract x < 1 := by
  simp only [jsFract, sub_lt_iff_lt_add]
  exact lt_of_lt_of_le (Int.lt_floor_add_one x) (by linarith)

/-! ## Clipper geometry utilities (source: `clipperUtils.ts`)

JS numbers are modelled as `Option ℚ`: `none` is `NaN` (produced by malformed
numeric input), `some q` a finite value.  `CLIPPER_SCALE = 1000` (source
line 12). -/

/-- A Clipper fixed-point point `{X, Y}` (source lines 14–17). -/
structure ClipPoint where
  X : Option ℚ
  Y : Option ℚ
deriving DecidableEq, Repr

/-- The fixed coordinate scale factor (source line 12). -/
def CLIPPER_SCALE : ℚ := 1000

/-- `unionPolygons` (source lines 302–318): empty input yields an empty list,
a single polygon is returned as-is, and only two or more polygons are handed
to the Clipper boolean union.  The Clipper library call
(`ClipperLib.Clipper.Execute`, non-zero fill) is external to the repository
and abstracted as the argument `clipperUnion`. -/
def unionPolygons (clipperUnion : List (List ClipPoint) → List (List ClipPoint))
    (polygons : List (List ClipPoint)) : List (List ClipPoint) :=
  if polygons.length = 0 then []
  else if polygons.length = 1 then polygons
  else clipperUnion polygons

end Mazemas

namespace Mazemas

/-! ## Claim theorems -/

/-- C10: for every input list containing zero polygons or exactly one polygon,
`unionPolygons` returns the input list unchanged — the result does not depend
on the Clipper union at all, so no boolean union and no cleaning is performed;
in particular a single self-intersecting polygon passes through the union
stage unmodified. -/
theorem claim_C10_unionPolygons_short_input_unchanged
    (clipperUnion : List (List ClipPoint) → List (List ClipPoint))
    (polygons : List (List ClipPoint)) (h : polygons.length ≤ 1) :
    unionPolygons clipperUnion polygons = polygons := by
  unfold unionPolygons
  cases polygons with
  | nil => simp
  | cons p t =>
    cases t with
    | nil => simp
    | cons q u => simp at h

/-- Witness for C10 at a concrete single (self-intersecting, "bowtie")
polygon and a clipper union that would erase everything if it were called. -/
theorem claim_C10_witness :
    ([[ClipPoint.mk (some 0) (some 0), ClipPoint.mk (some 1) (some 1),
       ClipPoint.mk (some 1) (some 0), ClipPoint.mk (some 0) (some 1)]].length ≤ 1) ∧
      unionPolygons (fun _ => [])
        [[ClipPoint.mk (some 0) (some 0), ClipPoint.mk (some 1) (some 1),
          ClipPoint.mk (some 1) (some 0), ClipPoint.mk (some 0) (some 1)]] =
        [[ClipPoint.mk (some 0) (some 0), ClipPoint.mk (some 1) (some 1),
          ClipPoint.mk (some 1) (some 0), ClipPoint.mk (some 0) (some 1)]] :=
  ⟨by decide, claim_C10_unionPolygons_short_input_unchanged (fun _ => []) _ (by decide)⟩

end Mazemas

namespace Mazemas

/-! ## The polar graph (source: `mazeGenerator.ts` lines 39–107)

A node is identified by its id `(r, c)` (ring index, cell index); `(0, 0)` is
the root/center node.  The graph structure used by the generation loop depends
only on the per-ring cell counts: `counts[i]` is the number of cells of ring
`i + 1` (i.e. `ringNodes[i + 1].length`), so `numRings = counts.length`. -/

/-- Node identity `(ring index, cell index)`; the center node is `(0, 0)`. -/
abbrev Cell := ℕ × ℕ

/-- `getNeighbors` (source lines 68–107): same-ring CW/CCW neighbors, the
inward neighbor by rounded index ratio (the center if `r = 1`), and the
outward neighbor by rounded index ratio if `r < numRings`.
Out-of-graph nodes and empty rings yield no neighbors; on such inputs the
JavaScript would fault on an `undefined` array entry, and they are unreachable
from nodes of the graph (every built ring is nonempty). -/
def getNeighbors (counts : List ℕ) (node : Cell) : List Cell :=
  if node.1 = 0 then
    match counts.head? with
    | some n1 => (List.range n1).map (fun c => (1, c))
    | none => []
  else
    match counts[node.1 - 1]? with
    | none => []
    | some myCount =>
      if myCount = 0 then []
      else
        let cw : Cell := (node.1, (node.2 + 1) % myCount)
        let ccw : Cell := (node.1, (node.2 + myCount - 1) % myCount)
        let inward : List Cell :=
          if node.1 = 1 then [(0, 0)]
          else match counts[node.1 - 2]? with
            | none => []
            | some innerCount =>
              if innerCount = 0 then []
              else [(node.1 - 1, (jsRound ((node.2 * innerCount : ℚ) / myCount)).toNat % innerCount)]
        let outward : List Cell :=
          if node.1 < counts.length then
            match counts[node.1]? with
            | none => []
            | some outerCount =>
              if outerCount = 0 then []
              else [(node.1 + 1, (jsRound ((node.2 * outerCount : ℚ) / myCount)).toNat % outerCount)]
          else []
        cw :: ccw :: (inward ++ outward)

/-- All nodes of the polar graph: the center plus every ring cell
(source lines 24–65 build exactly these). -/
def allNodes (counts : List ℕ) : List Cell :=
  (0, 0) :: counts.enum.flatMap (fun p => (List.range p.2).map (fun c => (p.1 + 1, c)))

theorem getElem?_zero_of_head? {l : List ℕ} {a : ℕ} (h : l.head? = some a) :
    l[0]? = some a := by
  cases l <;> simp_all

theorem mem_allNodes {counts : List ℕ} {r c : ℕ} :
    (r, c) ∈ allNodes counts ↔
      (r = 0 ∧ c = 0) ∨ (1 ≤ r ∧ ∃ m, counts[r - 1]? = some m ∧ c < m) := by
  simp only [allNodes, List.mem_cons, List.mem_flatMap, List.mem_map, List.mem_range,
    Prod.mk.injEq]
  constructor
  · rintro (⟨h1, h2⟩ | ⟨⟨i, n⟩, hmem, c', hc', hr, hc⟩)
    · exact Or.inl ⟨h1, h2⟩
    · have hg : counts[i]? = some n := List.mk_mem_enum_iff_getElem?.mp hmem
      refine Or.inr ⟨by omega, n, ?_, hc ▸ hc'⟩
      rw [show r - 1 = i by omega]
      exact hg
  · rintro (⟨h1, h2⟩ | ⟨hr, m, hm, hc⟩)
    · exact Or.inl ⟨h1, h2⟩
    · exact Or.inr ⟨(r - 1, m), List.mk_mem_enum_iff_getElem?.mpr hm, c, hc, by omega, rfl⟩

/-- membership in allNodes, via an in-graph condition -/
theorem in_graph_mem_allNodes {counts : List ℕ} {r c m : ℕ}
    (hr : 1 ≤ r) (hm : counts[r - 1]? = some m) (hc : c < m) :
    (r, c) ∈ allNodes counts :=
  mem_allNodes.mpr (Or.inr ⟨hr, m, hm, hc⟩)

theorem getNeighbors_mem_allNodes {counts : List ℕ} {node n : Cell}
    (h : n ∈ getNeighbors counts node) : n ∈ allNodes counts := by
  obtain ⟨r, c⟩ := node
  obtain ⟨nr, nc⟩ := n
  unfold getNeighbors at h
  by_cases hr : r = 0
  · rw [hr] at h
    simp only [if_pos rfl] at h
    match hh : counts.head? with
    | none => rw [hh] at h; simp at h
    | some n1 =>
      rw [hh] at h
      obtain ⟨c', hc', heq⟩ := List.mem_map.mp h
      rw [List.mem_range] at hc'
      obtain ⟨h1, h2⟩ := Prod.mk.injEq .. ▸ heq
      refine in_graph_mem_allNodes ?_ ?_ (h2 ▸ hc')
      · omega
      · rw [← h1]
        simpa using getElem?_zero_of_head? hh
  · simp only [if_neg hr] at h
    match hm : counts[r - 1]? with
    | none => rw [hm] at h; simp at h
    | some myCount =>
      rw [hm] at h
      by_cases hmc : myCount = 0
      · simp [hmc] at h
      · simp only [if_neg hmc, List.mem_cons, List.mem_append] at h
        have hmcpos : 0 < myCount := Nat.pos_of_ne_zero hmc
        rcases h with h | h | h | h
        · obtain ⟨h1, h2⟩ := Prod.mk.injEq .. ▸ h
          exact in_graph_mem_allNodes (by omega) (h1 ▸ hm)
            (h2 ▸ Nat.mod_lt _ hmcpos)
        · obtain ⟨h1, h2⟩ := Prod.mk.injEq .. ▸ h
          exact in_graph_mem_allNodes (by omega) (h1 ▸ hm)
            (h2 ▸ Nat.mod_lt _ hmcpos)
        · by_cases h1 : r = 1
          · rw [h1] at h
            simp only [if_true, List.mem_singleton] at h
            rw [h]
            exact List.mem_cons_self _ _
          · simp only [if_neg h1] at h
            match hi : counts[r - 2]? with
            | none => rw [hi] at h; simp at h
            | some innerCount =>
              rw [hi] at h
              by_cases hic : innerCount = 0
              · simp [hic] at h
              · simp only [if_neg hic, List.mem_singleton] at h
                obtain ⟨e1, e2⟩ := Prod.mk.injEq .. ▸ h
                refine in_graph_mem_allNodes (by omega) ?_
                  (e2 ▸ Nat.mod_lt _ (Nat.pos_of_ne_zero hic))
                rw [e1, show r - 1 - 1 = r - 2 by omega]
                exact hi
        · by_cases hlt : r < counts.length
          · simp only [if_pos hlt] at h
            match ho : counts[r]? with
            | none => rw [ho] at h; simp at h
            | some outerCount =>
              rw [ho] at h
              by_cases hoc : outerCount = 0
              · simp [hoc] at h
              · simp only [if_neg hoc, List.mem_singleton] at h
                obtain ⟨e1, e2⟩ := Prod.mk.injEq .. ▸ h
                refine in_graph_mem_allNodes (by omega) ?_
                  (e2 ▸ Nat.mod_lt _ (Nat.pos_of_ne_zero hoc))
                rw [e1, show r + 1 - 1 = r by omega]
                exact ho
          · simp [if_neg hlt] at h

/-! ## Growing-tree generation (source lines 109–208) -/

/-- Directional class of a candidate move (source lines 156–159). -/
inductive Dir where
  | IN : Dir
  | OUT : Dir
  | SIDE : Dir
deriving DecidableEq, Repr

/-- `if (n.r > current.r) dir = "OUT"; else if (n.r < current.r) dir = "IN"; else dir = "SIDE"`. -/
def dirOf (current cand : Cell) : Dir :=
  if cand.1 > current.1 then .OUT else if cand.1 < current.1 then .IN else .SIDE

/-- A weighted candidate (the element of `weightedNeighbors`, source lines 152–189). -/
structure Weighted where
  node : Cell
  dir : Dir
  weight : ℚ
deriving DecidableEq, Repr

/-- The weight of one candidate (source lines 153–188): start at 100; inertia
bonus / turn penalty against the direction `current` was entered by; inward
bonus 1200; outward penalty 40 at difficulty > 3; jitter `random() * 50`;
clamped below at 1.  `rnd` is the value of the `random()` call. -/
def candidateWeight (inertiaWeight difficulty : ℚ) (prevDir : Option Dir) (dir : Dir)
    (rnd : ℚ) : ℚ :=
  let w0 : ℚ := 100
  let w1 : ℚ :=
    match prevDir with
    | some p => if p = dir then w0 + inertiaWeight else w0 - 50
    | none => w0
  let w2 : ℚ := if dir = .IN then w1 + 1200 else w1
  let w3 : ℚ := if 3 < difficulty ∧ dir = .OUT then w2 - 40 else w2
  max 1 (w3 + rnd * 50)

/-- `neighbors.map(...)` (source line 152): each candidate consumes the next
PRNG value, in candidate order; `k` is the PRNG counter at the first call. -/
def weighCandidates (inertiaWeight difficulty : ℚ) (prevDir : Option Dir) (current : Cell)
    (sinStream : ℕ → ℚ) (k : ℕ) (nbrs : List Cell) : List Weighted :=
  nbrs.enum.map (fun p =>
    let dir := dirOf current p.2
    { node := p.2, dir := dir,
      weight := candidateWeight inertiaWeight difficulty prevDir dir
        (jsFract (sinStream (k + p.1))) })

/-- Stable insertion step for descending weight order: a later element is
placed after every earlier element of greater-or-equal weight. -/
def insertByWeight (a : Weighted) : List Weighted → List Weighted
  | [] => [a]
  | b :: l => if b.weight > a.weight then b :: insertByWeight a l else a :: b :: l

/-- `weightedNeighbors.sort((a, b) => b.weight - a.weight)` (source line 192):
JavaScript `Array.prototype.sort` is required to be stable, and a stable sort
by descending weight has a unique result, realized here by stable insertion
sort. -/
def sortByWeightDesc : List Weighted → List Weighted
  | [] => []
  | a :: l => insertByWeight a (sortByWeightDesc l)

/-- The candidate weight as claim C5 states it: 100, plus
`inertiaWeight = 500 − 60·difficulty` when the candidate's direction class
equals the direction `current` was entered by and minus 50 when it differs
(no adjustment when `current` has no recorded entry direction), plus 1200 for
IN, minus 40 for OUT at difficulty > 3, plus the jitter, clamped below at 1. -/
def specWeight (difficulty : ℚ) (entered : Option Dir) (dir : Dir) (jitter : ℚ) : ℚ :=
  max 1 (100
    + (match entered with
       | some e => if e = dir then 500 - 60 * difficulty else -50
       | none => 0)
    + (if dir = .IN then 1200 else 0)
    + (if 3 < difficulty ∧ dir = .OUT then -40 else 0)
    + jitter)

theorem candidateWeight_eq_specWeight (difficulty : ℚ) (prevDir : Option Dir)
    (dir : Dir) (rnd : ℚ) :
    candidateWeight (500 - difficulty * 60) difficulty prevDir dir rnd
      = specWeight difficulty prevDir dir (rnd * 50) := by
  unfold candidateWeight specWeight
  rcases prevDir with _ | e
  · split_ifs <;> (congr 1) <;> ring
  · by_cases he : e = dir
    · simp only [if_pos he]
      split_ifs <;> (congr 1) <;> ring
    · simp only [if_neg he]
      split_ifs <;> (congr 1) <;> ring

theorem insertByWeight_ne_nil (a : Weighted) (s : List Weighted) :
    insertByWeight a s ≠ [] := by
  cases s with
  | nil => simp [insertByWeight]
  | cons b l =>
    unfold insertByWeight
    split <;> simp

theorem headD_insertByWeight_cons (a d b : Weighted) (l : List Weighted) :
    (insertByWeight a (b :: l)).headD d = if b.weight > a.weight then b else a := by
  unfold insertByWeight
  split <;> rfl

/-- The head of the stable descending sort is the first candidate attaining
the maximum weight: it has maximum weight, and every earlier candidate is
strictly lighter (ties broken by discovery order). -/
theorem sortByWeightDesc_head_argmax (a : Weighted) (t : List Weighted) :
    ∃ (i : ℕ) (hi : i < (a :: t).length),
      (sortByWeightDesc (a :: t)).headD ⟨(0, 0), .SIDE, 0⟩ = (a :: t).get ⟨i, hi⟩ ∧
      (∀ (j : ℕ) (hj : j < (a :: t).length),
        ((a :: t).get ⟨j, hj⟩).weight ≤ ((a :: t).get ⟨i, hi⟩).weight) ∧
      ∀ (j : ℕ) (hj : j < i),
        ((a :: t).get ⟨j, hj.trans hi⟩).weight < ((a :: t).get ⟨i, hi⟩).weight := by
  induction t generalizing a with
  | nil =>
    refine ⟨0, by simp, rfl, ?_, ?_⟩
    · intro j hj
      simp only [List.length_cons, List.length_nil] at hj
      match j, hj with
      | 0, _ => exact le_refl _
      | j + 1, h => exact absurd h (by omega)
    · intro j hj
      exact absurd hj (Nat.not_lt_zero j)
  | cons b t ih =>
    obtain ⟨i, hi, hhead, hmax, hfirst⟩ := ih b
    have hsort : sortByWeightDesc (a :: b :: t)
        = insertByWeight a (sortByWeightDesc (b :: t)) := rfl
    match hS : sortByWeightDesc (b :: t) with
    | [] => exact absurd hS (insertByWeight_ne_nil b (sortByWeightDesc t))
    | c :: rest =>
      have hc : c = (b :: t).get ⟨i, hi⟩ := by
        rw [hS] at hhead
        exact hhead
      by_cases hw : c.weight > a.weight
      · refine ⟨i + 1, by simpa using Nat.succ_lt_succ hi, ?_, ?_, ?_⟩
        · rw [hsort, hS, headD_insertByWeight_cons, if_pos hw, hc]
          rfl
        · intro j hj
          match j with
          | 0 => exact le_of_lt (hc ▸ hw)
          | j + 1 =>
            have := hmax j (by simpa using Nat.lt_of_succ_lt_succ hj)
            exact this
        · intro j hj
          match j with
          | 0 => exact hc ▸ hw
          | j + 1 => exact hfirst j (Nat.lt_of_succ_lt_succ hj)
      · refine ⟨0, by simp, ?_, ?_, ?_⟩
        · rw [hsort, hS, headD_insertByWeight_cons, if_neg hw]
          rfl
        · intro j hj
          match j with
          | 0 => exact le_refl _
          | j + 1 =>
            have h1 := hmax j (by simpa using Nat.lt_of_succ_lt_succ hj)
            have h2 : c.weight ≤ a.weight := le_of_not_lt hw
            exact le_trans h1 (hc ▸ h2)
        · intro j hj
          exact absurd hj (Nat.not_lt_zero j)

/-- Current-node selection as claim C5 states it: when the first random draw
`r0` falls below `branchProb`, a uniformly random active index `⌊r1·len⌋`;
otherwise the most recently appended (last) index. -/
def specPickIndex (branchProb r0 r1 : ℚ) (len : ℕ) : ℕ :=
  if r0 < branchProb then (⌊r1 * len⌋).toNat else len - 1

/-- The generation state: visited flags, parent links, recorded edges,
entry-direction map and the active frontier (source lines 111–116), plus the
PRNG counter (`seedValue`, as an offset). -/
structure GenState where
  visited : List Cell
  parent : List (Cell × Cell)
  edges : List (Cell × Cell)
  entryDir : List (Cell × Dir)
  active : List Cell
  k : ℕ
deriving Repr

/-- Selection of `currentIndex` (source lines 136–145): with probability
`branchProb` a uniformly random index `Math.floor(random() * active.length)`,
otherwise the last index.  `k` is the PRNG counter. -/
def pickIdx (branchProb : ℚ) (sinStream : ℕ → ℚ) (k : ℕ) (len : ℕ) : ℕ :=
  if jsFract (sinStream k) < branchProb
  then (⌊jsFract (sinStream (k + 1)) * len⌋).toNat
  else len - 1

/-- The PRNG counter after the `currentIndex` selection (one call to
`random()`, plus a second one in the branching case). -/
def nextK (branchProb : ℚ) (sinStream : ℕ → ℚ) (k : ℕ) : ℕ :=
  if jsFract (sinStream k) < branchProb then k + 2 else k + 1

theorem pickIdx_lt {branchProb : ℚ} {sinStream : ℕ → ℚ} {k len : ℕ} (h : 0 < len) :
    pickIdx branchProb sinStream k len < len := by
  unfold pickIdx
  by_cases hb : jsFract (sinStream k) < branchProb
  · rw [if_pos hb]
    have h0 : (0 : ℚ) ≤ jsFract (sinStream (k + 1)) := jsFract_nonneg _
    have h1 : jsFract (sinStream (k + 1)) < 1 := jsFract_lt_one _
    have hlt : jsFract (sinStream (k + 1)) * len < len := by
      have : (0 : ℚ) < len := by exact_mod_cast h
      nlinarith
    have : ⌊jsFract (sinStream (k + 1)) * (len : ℚ)⌋ < (len : ℤ) := by
      exact Int.floor_lt.mpr (by exact_mod_cast hlt)
    omega
  · rw [if_neg hb]
    omega

/-- One iteration of the growing-tree `while` loop (source lines 135–207).
The loop body is only ever entered with a nonempty `active` list; `headD`
returns the sorted list's first element, which exists since the candidate
list is nonempty in that branch. -/
def genStep (counts : List ℕ) (branchProb inertiaWeight difficulty : ℚ)
    (sinStream : ℕ → ℚ) (s : GenState) : GenState :=
  if s.active = [] then s
  else
    let len := s.active.length
    let idx : ℕ := pickIdx branchProb sinStream s.k len
    let k1 : ℕ := nextK branchProb sinStream s.k
    let current := s.active.getD idx (0, 0)
    let nbrs := (getNeighbors counts current).filter (fun n => !s.visited.contains n)
    if nbrs = [] then
      { s with active := s.active.eraseIdx idx, k := k1 }
    else
      let weighted := weighCandidates inertiaWeight difficulty
        (s.entryDir.lookup current) current sinStream k1 nbrs
      let chosen := (sortByWeightDesc weighted).headD ⟨(0, 0), .SIDE, 0⟩
      { visited := chosen.node :: s.visited,
        parent := (chosen.node, current) :: s.parent,
        edges := s.edges ++ [(current, chosen.node)],
        entryDir := (chosen.node, chosen.dir) :: s.entryDir,
        active := s.active ++ [chosen.node],
        k := k1 + nbrs.length }

/-- Number of not-yet-visited graph nodes. -/
def unvisitedCount (counts : List ℕ) (s : GenState) : ℕ :=
  ((allNodes counts).filter (fun n => !s.visited.contains n)).length

/-- Termination measure of the growing-tree loop. -/
def genMeasure (counts : List ℕ) (s : GenState) : ℕ :=
  2 * unvisitedCount counts s + s.active.length

theorem insertByWeight_perm (a : Weighted) (l : List Weighted) :
    List.Perm (insertByWeight a l) (a :: l) := by
  induction l with
  | nil => rfl
  | cons b t ih =>
    unfold insertByWeight
    by_cases h : b.weight > a.weight
    · rw [if_pos h]
      exact (ih.cons b).trans (List.Perm.swap a b t)
    · rw [if_neg h]

theorem sortByWeightDesc_perm (l : List Weighted) :
    List.Perm (sortByWeightDesc l) l := by
  induction l with
  | nil => rfl
  | cons a t ih => exact (insertByWeight_perm a (sortByWeightDesc t)).trans (ih.cons a)

theorem head?_sortByWeightDesc_mem {l : List Weighted} {x : Weighted}
    (h : (sortByWeightDesc l).head? = some x) : x ∈ l :=
  (sortByWeightDesc_perm l).mem_iff.mp (List.mem_of_mem_head? h)

theorem sortByWeightDesc_ne_nil {l : List Weighted} (h : l ≠ []) :
    sortByWeightDesc l ≠ [] := by
  intro hc
  have hlen := (sortByWeightDesc_perm l).length_eq
  rw [hc] at hlen
  exact h (List.length_eq_zero.mp hlen.symm)

theorem weighCandidates_node_mem {iw d : ℚ} {prevDir : Option Dir} {current : Cell}
    {sinStream : ℕ → ℚ} {k : ℕ} {nbrs : List Cell} {w : Weighted}
    (h : w ∈ weighCandidates iw d prevDir current sinStream k nbrs) : w.node ∈ nbrs := by
  unfold weighCandidates at h
  obtain ⟨⟨i, n⟩, hmem, heq⟩ := List.mem_map.mp h
  have hg : nbrs[i]? = some n := List.mk_mem_enum_iff_getElem?.mp hmem
  have hn : n ∈ nbrs := List.getElem?_mem hg
  have hwn : w.node = n := by rw [← heq]
  exact hwn ▸ hn

/-- A strict filter-count decrease when a new element is excluded. -/
theorem filter_length_lt_of_mem {l : List Cell} {v : List Cell} {x : Cell}
    (hx : x ∈ l) (hnv : x ∉ v) :
    (l.filter (fun n => !(x :: v).contains n)).length <
      (l.filter (fun n => !v.contains n)).length := by
  induction l with
  | nil => simp at hx
  | cons a t ih =>
    by_cases hax : a = x
    · subst hax
      have h1 : (!(a :: v).contains a) = false := by simp
      have h2 : (!v.contains a) = true := by simpa [List.elem_iff] using hnv
      rw [List.filter_cons, List.filter_cons, h1, h2]
      simp only [List.length_cons]
      calc (t.filter (fun n => !(a :: v).contains n)).length
          ≤ (t.filter (fun n => !v.contains n)).length := by
            apply List.Sublist.length_le
            apply List.monotone_filter_right
            intro n hn
            simp only [Bool.not_eq_true', ← Bool.not_eq_true] at hn ⊢
            simp only [List.elem_iff, List.mem_cons] at hn ⊢
            tauto
        _ < (t.filter (fun n => !v.contains n)).length + 1 := Nat.lt_succ_self _
    · have hx' : x ∈ t := by cases List.mem_cons.mp hx with
        | inl h => exact absurd h.symm hax
        | inr h => exact h
      rw [List.filter_cons, List.filter_cons]
      by_cases hav : a ∈ v
      · have h1 : (!(x :: v).contains a) = false := by
          simp [List.elem_iff, List.mem_cons]
          tauto
        have h2 : (!v.contains a) = false := by
          simpa [List.elem_iff] using hav
        rw [h1, h2]
        exact ih hx'
      · have h1 : (!(x :: v).contains a) = true := by
          simp [List.elem_iff, List.mem_cons]
          tauto
        have h2 : (!v.contains a) = true := by
          simpa [List.elem_iff] using hav
        rw [h1, h2]
        simpa using ih hx'

theorem headD_mem {α : Type} {l : List α} (h : l ≠ []) (d : α) : l.headD d ∈ l := by
  cases l with
  | nil => exact absurd rfl h
  | cons a t => simp

/-- The candidate chosen in the visiting branch is one of the unvisited
neighbors of `current`. -/
theorem chosen_node_mem {iw d : ℚ} {prevDir : Option Dir} {current : Cell}
    {sinStream : ℕ → ℚ} {k : ℕ} {nbrs : List Cell} (hN : nbrs ≠ []) :
    ((sortByWeightDesc (weighCandidates iw d prevDir current sinStream k nbrs)).headD
      ⟨(0, 0), .SIDE, 0⟩).node ∈ nbrs := by
  have hwlen : (weighCandidates iw d prevDir current sinStream k nbrs).length = nbrs.length := by
    unfold weighCandidates
    simp [List.enum_length]
  have hw : weighCandidates iw d prevDir current sinStream k nbrs ≠ [] := by
    intro hc
    rw [hc] at hwlen
    exact hN (List.length_eq_zero.mp hwlen.symm)
  have hs := sortByWeightDesc_ne_nil hw
  have hmem := headD_mem hs (⟨(0, 0), .SIDE, 0⟩ : Weighted)
  exact weighCandidates_node_mem
    ((sortByWeightDesc_perm _).mem_iff.mp hmem)

theorem not_mem_of_bang_contains {v : List Cell} {x : Cell}
    (h : (!v.contains x) = true) : x ∉ v := by
  simpa [List.elem_iff] using h

theorem genStep_measure (counts : List ℕ) (bp iw d : ℚ) (sinStream : ℕ → ℚ)
    (s : GenState) (h : s.active ≠ []) :
    genMeasure counts (genStep counts bp iw d sinStream s) < genMeasure counts s := by
  rw [genStep, if_neg h]
  have hlen0 : 0 < s.active.length := List.length_pos.mpr h
  have hidx : pickIdx bp sinStream s.k s.active.length < s.active.length := pickIdx_lt hlen0
  set idx := pickIdx bp sinStream s.k s.active.length with hidxdef
  set current := s.active.getD idx (0, 0) with hcur
  set nbrs := (getNeighbors counts current).filter (fun n => !s.visited.contains n) with hnbrs
  by_cases hN : nbrs = []
  · rw [if_pos hN]
    unfold genMeasure unvisitedCount
    simp only []
    have herase : (s.active.eraseIdx idx).length = s.active.length - 1 := by
      rw [List.length_eraseIdx_of_lt hidx]
    rw [herase]
    omega
  · rw [if_neg hN]
    have hnode := @chosen_node_mem iw d (s.entryDir.lookup current) current
      sinStream (nextK bp sinStream s.k) nbrs hN
    obtain ⟨hgn, hfil⟩ := List.mem_filter.mp (hnbrs ▸ hnode)
    have hnv := not_mem_of_bang_contains hfil
    have hall := getNeighbors_mem_allNodes hgn
    have hdec := filter_length_lt_of_mem hall hnv
    rw [hcur, hidxdef] at hdec
    unfold genMeasure unvisitedCount
    simp only [List.length_append, List.length_cons, List.length_singleton, List.length_nil]
    omega

/-- The growing-tree `while` loop (source lines 135–208), by well-founded
recursion on `genMeasure`. -/
def genLoop (counts : List ℕ) (branchProb inertiaWeight difficulty : ℚ)
    (sinStream : ℕ → ℚ) (s : GenState) : GenState :=
  if h : s.active = [] then s
  else genLoop counts branchProb inertiaWeight difficulty sinStream
    (genStep counts branchProb inertiaWeight difficulty sinStream s)
termination_by genMeasure counts s
decreasing_by exact genStep_measure counts branchProb inertiaWeight difficulty sinStream s h

/-- The state before the loop (source lines 111–116): center visited and
active, no parents, edges or entry directions. -/
def initState : GenState :=
  { visited := [(0, 0)], parent := [], edges := [], entryDir := [], active := [(0, 0)], k := 0 }

/-- The whole generation phase: difficulty parameters (source lines 123, 129)
and the loop, started from `initState`. -/
def runGeneration (counts : List ℕ) (difficulty : ℚ) (sinStream : ℕ → ℚ) : GenState :=
  genLoop counts (0.02 + difficulty * 0.08) (500 - difficulty * 60) difficulty
    sinStream initState

/-- Any property preserved by the loop body holds for the loop's result. -/
theorem genLoop_invariant {counts : List ℕ} {bp iw d : ℚ} {sinStream : ℕ → ℚ}
    (P : GenState → Prop)
    (hstep : ∀ s, s.active ≠ [] → P s → P (genStep counts bp iw d sinStream s)) :
    ∀ s, P s → P (genLoop counts bp iw d sinStream s) := by
  have main : ∀ n s, genMeasure counts s ≤ n → P s →
      P (genLoop counts bp iw d sinStream s) := by
    intro n
    induction n with
    | zero =>
      intro s hle hP
      have hact : s.active = [] := by
        by_contra hne
        have := List.length_pos.mpr hne
        unfold genMeasure at hle
        omega
      rw [genLoop, dif_pos hact]
      exact hP
    | succ n ih =>
      intro s hle hP
      by_cases hact : s.active = []
      · rw [genLoop, dif_pos hact]
        exact hP
      · rw [genLoop, dif_neg hact]
        have hm := genStep_measure counts bp iw d sinStream s hact
        exact ih _ (by omega) (hstep s hact hP)
  intro s hP
  exact main (genMeasure counts s) s le_rfl hP

/-- When the loop returns, the active frontier is empty. -/
theorem genLoop_active_nil {counts : List ℕ} {bp iw d : ℚ} {sinStream : ℕ → ℚ} :
    ∀ s, (genLoop counts bp iw d sinStream s).active = [] := by
  have main : ∀ n s, genMeasure counts s ≤ n →
      (genLoop counts bp iw d sinStream s).active = [] := by
    intro n
    induction n with
    | zero =>
      intro s hle
      have hact : s.active = [] := by
        by_contra hne
        have := List.length_pos.mpr hne
        unfold genMeasure at hle
        omega
      rw [genLoop, dif_pos hact]
      exact hact
    | succ n ih =>
      intro s hle
      by_cases hact : s.active = []
      · rw [genLoop, dif_pos hact]
        exact hact
      · rw [genLoop, dif_neg hact]
        have hm := genStep_measure counts bp iw d sinStream s hact
        exact ih _ (by omega)
  intro s
  exact main (genMeasure counts s) s le_rfl

end Mazemas

namespace Mazemas

/-- C5: in every generation step with a non-empty candidate set, each
candidate's weight equals 100, plus `inertiaWeight = 500 − 60·difficulty`
when the candidate's direction class equals the direction `current` was
entered by and minus 50 when it differs, plus 1200 when the direction is IN,
minus 40 when difficulty > 3 and the direction is OUT, plus a uniform random
jitter in [0, 50), clamped below at 1; the maximum-weight candidate is
selected with ties broken by candidate discovery order; and the step picks a
uniformly random active node with probability `branchProb = 0.02 +
0.08·difficulty`, otherwise the most recently appended one. -/
theorem claim_C5_step_weights_and_selection :
    (∀ (difficulty : ℚ) (prevDir : Option Dir) (dir : Dir) (rnd : ℚ),
      candidateWeight (500 - difficulty * 60) difficulty prevDir dir rnd
        = specWeight difficulty prevDir dir (rnd * 50))
    ∧ (∀ x : ℚ, 0 ≤ jsFract x * 50 ∧ jsFract x * 50 < 50)
    ∧ (∀ (a : Weighted) (t : List Weighted), ∃ (i : ℕ) (hi : i < (a :: t).length),
        (sortByWeightDesc (a :: t)).headD ⟨(0, 0), .SIDE, 0⟩ = (a :: t).get ⟨i, hi⟩ ∧
        (∀ (j : ℕ) (hj : j < (a :: t).length),
          ((a :: t).get ⟨j, hj⟩).weight ≤ ((a :: t).get ⟨i, hi⟩).weight) ∧
        ∀ (j : ℕ) (hj : j < i),
          ((a :: t).get ⟨j, hj.trans hi⟩).weight < ((a :: t).get ⟨i, hi⟩).weight)
    ∧ (∀ (branchProb : ℚ) (sinStream : ℕ → ℚ) (k len : ℕ),
        pickIdx branchProb sinStream k len
          = specPickIndex branchProb (jsFract (sinStream k)) (jsFract (sinStream (k + 1))) len)
    ∧ (∀ (counts : List ℕ) (difficulty : ℚ) (sinStream : ℕ → ℚ),
        runGeneration counts difficulty sinStream
          = genLoop counts (0.02 + 0.08 * difficulty) (500 - 60 * difficulty) difficulty
              sinStream initState) := by
  refine ⟨candidateWeight_eq_specWeight, ?_, sortByWeightDesc_head_argmax, ?_, ?_⟩
  · intro x
    refine ⟨mul_nonneg (jsFract_nonneg x) (by norm_num), ?_⟩
    have := jsFract_lt_one x
    linarith
  · intro bp sinStream k len
    rfl
  · intro counts difficulty sinStream
    have h1 : (0.02 + difficulty * 0.08 : ℚ) = 0.02 + 0.08 * difficulty := by ring
    have h2 : (500 - difficulty * 60 : ℚ) = 500 - 60 * difficulty := by ring
    rw [runGeneration, h1, h2]

end Mazemas

namespace Mazemas

/-! ## Spanning-tree invariants of the generation loop -/

/-- Visit rank within a newest-first visited list: the index in its
reversal (so the first-visited node has rank 0). -/
def rankIn (vis : List Cell) (v : Cell) : ℕ :=
  haveI : BEq Cell := instBEqOfDecidableEq
  vis.reverse.indexOf v

/-- Visit rank of a node: its position in visit order (the root has rank 0). -/
def rankOf (s : GenState) (v : Cell) : ℕ := rankIn s.visited v

/-- Reachability of the root by following parent links. -/
inductive ReachesRoot (pm : List (Cell × Cell)) : Cell → Prop where
  | root : ReachesRoot pm (0, 0)
  | step {c p : Cell} : pm.lookup c = some p → ReachesRoot pm p → ReachesRoot pm c

theorem eq_getD_of_not_mem_eraseIdx {l : List Cell} {i : ℕ} (hi : i < l.length)
    {v : Cell} (hv : v ∈ l) (hnv : v ∉ l.eraseIdx i) : v = l.getD i (0, 0) := by
  induction l generalizing i with
  | nil => simp at hv
  | cons a t ih =>
    cases i with
    | zero =>
      simp only [List.eraseIdx_cons_zero] at hnv
      rcases List.mem_cons.mp hv with rfl | hvt
      · rfl
      · exact absurd hvt hnv
    | succ i =>
      simp only [List.eraseIdx_cons_succ, List.mem_cons, not_or] at hnv
      rcases List.mem_cons.mp hv with rfl | hvt
      · exact absurd rfl hnv.1
      · have := ih (by simpa using Nat.lt_of_succ_lt_succ hi) hvt hnv.2
        simpa using this

theorem getD_mem_of_lt {l : List Cell} {i : ℕ} (hi : i < l.length) :
    l.getD i (0, 0) ∈ l := by
  rw [List.getD_eq_get l (0, 0) hi]
  exact List.get_mem l i hi

/-- Loop invariant: the visited list and parent map of the generation state
form a tree rooted at the center, and every visited node is either still on
the frontier or has all its neighbors visited. -/
structure GenInv (counts : List ℕ) (s : GenState) : Prop where
  nodup : s.visited.Nodup
  visited_eq : s.visited = s.parent.map Prod.fst ++ [(0, 0)]
  edges_parent : s.edges.length = s.parent.length
  active_sub : ∀ a ∈ s.active, a ∈ s.visited
  parent_ok : ∀ cp ∈ s.parent, cp.2 ∈ s.visited ∧ rankOf s cp.2 < rankOf s cp.1
  frontier_closed : ∀ v ∈ s.visited,
    v ∈ s.active ∨ ∀ n ∈ getNeighbors counts v, n ∈ s.visited

/-- Case characterization of one loop iteration: either the selected node is
a dead end (all neighbors visited) and is removed from the frontier, or an
unvisited neighbor is chosen, visited, parented and appended. -/
theorem genStep_cases (counts : List ℕ) (bp iw d : ℚ) (sinStream : ℕ → ℚ)
    (s : GenState) (h : s.active ≠ []) :
    (∃ idx, idx < s.active.length ∧
      ((getNeighbors counts (s.active.getD idx (0, 0))).filter
          (fun n => !s.visited.contains n) = []) ∧
      genStep counts bp iw d sinStream s
        = { s with active := s.active.eraseIdx idx, k := nextK bp sinStream s.k })
    ∨ (∃ (idx : ℕ) (chosen : Weighted) (k' : ℕ), idx < s.active.length
        ∧ chosen.node ∈ getNeighbors counts (s.active.getD idx (0, 0))
        ∧ chosen.node ∉ s.visited
        ∧ genStep counts bp iw d sinStream s
          = { visited := chosen.node :: s.visited,
              parent := (chosen.node, s.active.getD idx (0, 0)) :: s.parent,
              edges := s.edges ++ [(s.active.getD idx (0, 0), chosen.node)],
              entryDir := (chosen.node, chosen.dir) :: s.entryDir,
              active := s.active ++ [chosen.node],
              k := k' }) := by
  rw [genStep, if_neg h]
  have hidx : pickIdx bp sinStream s.k s.active.length < s.active.length :=
    pickIdx_lt (List.length_pos.mpr h)
  set idx := pickIdx bp sinStream s.k s.active.length with hidxdef
  set current := s.active.getD idx (0, 0) with hcur
  set nbrs := (getNeighbors counts current).filter (fun n => !s.visited.contains n) with hnbrs
  by_cases hN : nbrs = []
  · rw [if_pos hN]
    exact Or.inl ⟨idx, hidx, hnbrs ▸ hN, rfl⟩
  · rw [if_neg hN]
    have hnode := @chosen_node_mem iw d (s.entryDir.lookup current) current
      sinStream (nextK bp sinStream s.k) nbrs hN
    obtain ⟨hgn, hfil⟩ := List.mem_filter.mp (hnbrs ▸ hnode)
    refine Or.inr ⟨idx, _, _, hidx, hgn, not_mem_of_bang_contains hfil, rfl⟩

end Mazemas

namespace Mazemas

theorem rankIn_cons_of_mem {vis : List Cell} {x v : Cell} (hv : v ∈ vis) :
    rankIn (x :: vis) v = rankIn vis v := by
  unfold rankIn
  simp only [List.reverse_cons]
  exact List.indexOf_append_of_mem (List.mem_reverse.mpr hv)

theorem rankIn_cons_self {vis : List Cell} {x : Cell} (hx : x ∉ vis) :
    rankIn (x :: vis) x = vis.length := by
  unfold rankIn
  simp only [List.reverse_cons]
  rw [List.indexOf_append_of_not_mem (fun hc => hx (List.mem_reverse.mp hc))]
  simp

theorem rankIn_lt_length {vis : List Cell} {v : Cell} (hv : v ∈ vis) :
    rankIn vis v < vis.length := by
  unfold rankIn
  have := List.indexOf_lt_length.mpr (List.mem_reverse.mpr hv)
  simpa using this

/-- The loop body preserves the tree invariant. -/
theorem genInv_step (counts : List ℕ) (bp iw d : ℚ) (sinStream : ℕ → ℚ)
    (s : GenState) (h : s.active ≠ []) (inv : GenInv counts s) :
    GenInv counts (genStep counts bp iw d sinStream s) := by
  rcases genStep_cases counts bp iw d sinStream s h with
    ⟨idx, hidx, hnb, heq⟩ | ⟨idx, chosen, k', hidx, hgn, hnv, heq⟩
  · rw [heq]
    refine ⟨inv.nodup, inv.visited_eq, inv.edges_parent, ?_, ?_, ?_⟩
    · intro a ha
      exact inv.active_sub a (List.mem_of_mem_eraseIdx ha)
    · intro cp hcp
      exact inv.parent_ok cp hcp
    · intro v hv
      rcases inv.frontier_closed v hv with hva | hclosed
      · by_cases hmem : v ∈ s.active.eraseIdx idx
        · exact Or.inl hmem
        · right
          have hv_eq : v = s.active.getD idx (0, 0) :=
            eq_getD_of_not_mem_eraseIdx hidx hva hmem
          intro n hn
          by_contra hnvis
          have hmemf : n ∈ (getNeighbors counts (s.active.getD idx (0, 0))).filter
              (fun n => !s.visited.contains n) :=
            List.mem_filter.mpr ⟨hv_eq ▸ hn, by simpa [List.elem_iff] using hnvis⟩
          rw [hnb] at hmemf
          simp at hmemf
      · exact Or.inr hclosed
  · have hcurmem : s.active.getD idx (0, 0) ∈ s.visited :=
      inv.active_sub _ (getD_mem_of_lt hidx)
    rw [heq]
    constructor
    · exact List.Nodup.cons hnv inv.nodup
    · simp only [List.map_cons]
      rw [List.cons_append, ← inv.visited_eq]
    · simp only [List.length_append, List.length_cons, List.length_nil,
        inv.edges_parent]
    · intro a ha
      rcases List.mem_append.mp ha with haold | hachosen
      · exact List.mem_cons_of_mem _ (inv.active_sub a haold)
      · simp only [List.mem_singleton] at hachosen
        exact hachosen ▸ List.mem_cons_self _ _
    · intro cp hcp
      rcases List.mem_cons.mp hcp with rfl | hold
      · refine ⟨List.mem_cons_of_mem _ hcurmem, ?_⟩
        show rankIn (chosen.node :: s.visited) _ < rankIn (chosen.node :: s.visited) _
        rw [rankIn_cons_of_mem hcurmem, rankIn_cons_self hnv]
        exact rankIn_lt_length hcurmem
      · obtain ⟨hp2, hrk⟩ := inv.parent_ok cp hold
        have hp1 : cp.1 ∈ s.visited := by
          rw [inv.visited_eq]
          exact List.mem_append_left _ (List.mem_map_of_mem Prod.fst hold)
        refine ⟨List.mem_cons_of_mem _ hp2, ?_⟩
        show rankIn (chosen.node :: s.visited) _ < rankIn (chosen.node :: s.visited) _
        rw [rankIn_cons_of_mem hp2, rankIn_cons_of_mem hp1]
        exact hrk
    · intro v hv
      rcases List.mem_cons.mp hv with rfl | hold
      · exact Or.inl (List.mem_append_right _ (List.mem_singleton.mpr rfl))
      · rcases inv.frontier_closed v hold with hva | hclosed
        · exact Or.inl (List.mem_append_left _ hva)
        · exact Or.inr fun n hn => List.mem_cons_of_mem _ (hclosed n hn)

/-- The initial state satisfies the tree invariant. -/
theorem genInv_init (counts : List ℕ) : GenInv counts initState := by
  constructor
  · simp [initState]
  · simp [initState]
  · simp [initState]
  · intro a ha
    simpa [initState] using ha
  · intro cp hcp
    simp [initState] at hcp
  · intro v hv
    simp only [initState] at hv ⊢
    exact Or.inl hv

/-- The full generation run satisfies the tree invariant. -/
theorem genInv_runGeneration (counts : List ℕ) (difficulty : ℚ) (sinStream : ℕ → ℚ) :
    GenInv counts (runGeneration counts difficulty sinStream) :=
  genLoop_invariant (GenInv counts)
    (fun s hs inv => genInv_step counts _ _ _ sinStream s hs inv)
    initState (genInv_init counts)

end Mazemas

namespace Mazemas

theorem lookup_cons_unfold (v k b : Cell) (t : List (Cell × Cell)) :
    List.lookup v ((k, b) :: t) = if v = k then some b else List.lookup v t := by
  simp only [List.lookup]
  by_cases h : v = k
  · simp [h]
  · have hb : (v == k) = false := beq_eq_false_iff_ne.mpr h
    simp [hb, h]

theorem lookup_eq_none_of_not_mem_keys {pm : List (Cell × Cell)} {v : Cell}
    (h : v ∉ pm.map Prod.fst) : pm.lookup v = none := by
  induction pm with
  | nil => rfl
  | cons e t ih =>
    obtain ⟨k, b⟩ := e
    simp only [List.map_cons, List.mem_cons, not_or] at h
    rw [lookup_cons_unfold, if_neg h.1]
    exact ih h.2

theorem exists_lookup_of_mem_keys {pm : List (Cell × Cell)} {v : Cell}
    (h : v ∈ pm.map Prod.fst) : ∃ p, pm.lookup v = some p := by
  induction pm with
  | nil => simp at h
  | cons e t ih =>
    obtain ⟨k, b⟩ := e
    by_cases hvk : v = k
    · exact ⟨b, by rw [lookup_cons_unfold, if_pos hvk]⟩
    · simp only [List.map_cons, List.mem_cons] at h
      rcases h with h | h
      · exact absurd h hvk
      · obtain ⟨p, hp⟩ := ih h
        exact ⟨p, by rw [lookup_cons_unfold, if_neg hvk]; exact hp⟩

theorem mem_of_lookup_eq_some {pm : List (Cell × Cell)} {v p : Cell}
    (h : pm.lookup v = some p) : (v, p) ∈ pm := by
  induction pm with
  | nil => simp [List.lookup] at h
  | cons e t ih =>
    obtain ⟨k, b⟩ := e
    rw [lookup_cons_unfold] at h
    by_cases hvk : v = k
    · rw [if_pos hvk] at h
      obtain rfl := Option.some_inj.mp h
      exact hvk ▸ List.mem_cons_self _ _
    · rw [if_neg hvk] at h
      exact List.mem_cons_of_mem _ (ih h)

/-- Every visited node's parent chain reaches the root, by strong induction
on visit rank. -/
theorem reachesRoot_of_inv {counts : List ℕ} {s : GenState} (inv : GenInv counts s) :
    ∀ v ∈ s.visited, ReachesRoot s.parent v := by
  have main : ∀ n, ∀ v ∈ s.visited, rankOf s v < n → ReachesRoot s.parent v := by
    intro n
    induction n with
    | zero =>
      intro v hv h
      exact absurd h (Nat.not_lt_zero _)
    | succ n ih =>
      intro v hv hrank
      by_cases hroot : v = (0, 0)
      · exact hroot ▸ ReachesRoot.root
      · have hkeys : v ∈ s.parent.map Prod.fst := by
          have hmem : v ∈ s.parent.map Prod.fst ++ [(0, 0)] := inv.visited_eq ▸ hv
          rcases List.mem_append.mp hmem with h | h
          · exact h
          · exact absurd (List.mem_singleton.mp h) hroot
        obtain ⟨p, hp⟩ := exists_lookup_of_mem_keys hkeys
        obtain ⟨hpv, hplt⟩ := inv.parent_ok (v, p) (mem_of_lookup_eq_some hp)
        have hpv2 : p ∈ s.visited := hpv
        have hplt2 : rankOf s p < rankOf s v := hplt
        exact ReachesRoot.step hp (ih p hpv2 (by omega))
  intro v hv
  exact main (rankOf s v + 1) v hv (Nat.lt_succ_self _)

end Mazemas

namespace Mazemas

/-! ## Connectivity of the polar graph -/

/-- Reachability from the center along the (directed) neighbor relation. -/
inductive GraphReach (counts : List ℕ) : Cell → Prop where
  | root : GraphReach counts (0, 0)
  | step {u v : Cell} : GraphReach counts u → v ∈ getNeighbors counts u →
      GraphReach counts v

theorem graphReach_ring_one {counts : List ℕ} {m : ℕ} (h0 : counts[0]? = some m)
    {c : ℕ} (hc : c < m) : GraphReach counts (1, c) := by
  refine GraphReach.step GraphReach.root ?_
  unfold getNeighbors
  simp only [if_pos rfl]
  have hh : counts.head? = some m := by
    cases counts with
    | nil => simp at h0
    | cons a t =>
      simp only [List.head?_cons]
      simpa using h0
  rw [hh]
  exact List.mem_map.mpr ⟨c, List.mem_range.mpr hc, rfl⟩

theorem graphReach_cw {counts : List ℕ} {r c m : ℕ} (hr : 1 ≤ r)
    (hm : counts[r - 1]? = some m) (hm0 : m ≠ 0) (hreach : GraphReach counts (r, c)) :
    GraphReach counts (r, (c + 1) % m) := by
  refine GraphReach.step hreach ?_
  unfold getNeighbors
  rw [if_neg (by omega : ¬r = 0)]
  simp only [hm]
  rw [if_neg hm0]
  exact List.mem_cons_self _ _

theorem graphReach_ring_cells {counts : List ℕ} {r m : ℕ} (hr : 1 ≤ r)
    (hm : counts[r - 1]? = some m) (hm0 : m ≠ 0)
    (h0 : GraphReach counts (r, 0)) :
    ∀ c < m, GraphReach counts (r, c) := by
  intro c
  induction c with
  | zero => intro _; exact h0
  | succ c ih =>
    intro hc
    have hprev := ih (by omega)
    have := graphReach_cw hr hm hm0 hprev
    rwa [Nat.mod_eq_of_lt hc] at this

theorem graphReach_outward_zero {counts : List ℕ} {r m m' : ℕ} (hr : 1 ≤ r)
    (hm : counts[r - 1]? = some m) (hm0 : m ≠ 0)
    (hlt : r < counts.length) (hm' : counts[r]? = some m') (hm'0 : m' ≠ 0)
    (h0 : GraphReach counts (r, 0)) : GraphReach counts (r + 1, 0) := by
  refine GraphReach.step h0 ?_
  unfold getNeighbors
  rw [if_neg (by omega : ¬r = 0)]
  simp only [hm]
  rw [if_neg hm0]
  refine List.mem_cons_of_mem _ (List.mem_cons_of_mem _ (List.mem_append_right _ ?_))
  rw [if_pos hlt]
  simp only [hm']
  rw [if_neg hm'0]
  simp only [List.mem_singleton, Prod.mk.injEq, Nat.cast_zero]
  refine ⟨trivial, ?_⟩
  have hz : ((0 : ℚ) * (m' : ℚ)) / (m : ℚ) = 0 := by norm_num
  rw [hz]
  have hj : jsRound 0 = 0 := by
    unfold jsRound
    norm_num
  rw [hj]
  simp

/-- The polar graph is connected: every node is reachable from the center
(rings are nonempty and each ring's cell 0 is reached from the previous
ring's cell 0, the rest of a ring by clockwise steps). -/
theorem graph_connected {counts : List ℕ} (hpos : ∀ n ∈ counts, 1 ≤ n) :
    ∀ v ∈ allNodes counts, GraphReach counts v := by
  have hzero : ∀ r, 1 ≤ r → r ≤ counts.length → GraphReach counts (r, 0) := by
    intro r
    induction r with
    | zero => intro h; omega
    | succ r ih =>
      intro _ hle
      cases Nat.eq_or_lt_of_le (Nat.one_le_iff_ne_zero.mpr (Nat.succ_ne_zero r)) with
      | _ =>
        by_cases hr0 : r = 0
        · subst hr0
          have h0 : ∃ m, counts[0]? = some m := by
            cases counts with
            | nil => simp at hle
            | cons a t => exact ⟨a, by simp⟩
          obtain ⟨m, hm⟩ := h0
          have hm1 : 1 ≤ m := hpos m (List.getElem?_mem hm)
          exact graphReach_ring_one hm (by omega)
        · have hr1 : 1 ≤ r := Nat.one_le_iff_ne_zero.mpr hr0
          have hrle : r ≤ counts.length := by omega
          have hprev := ih hr1 hrle
          have hltlen : r < counts.length := by omega
          have hm : ∃ m, counts[r - 1]? = some m := by
            have : r - 1 < counts.length := by omega
            exact ⟨counts[r - 1], List.getElem?_eq_getElem this⟩
          obtain ⟨m, hm⟩ := hm
          have hm' : counts[r]? = some counts[r] := List.getElem?_eq_getElem hltlen
          have hm1 : 1 ≤ m := hpos m (List.getElem?_mem hm)
          have hm'1 : 1 ≤ counts[r] := hpos _ (List.getElem?_mem hm')
          exact graphReach_outward_zero hr1 hm (by omega) hltlen hm' (by omega) hprev
  intro v hv
  obtain ⟨r, c⟩ := v
  rcases mem_allNodes.mp hv with ⟨hr, hc⟩ | ⟨hr, m, hm, hc⟩
  · subst hr; subst hc; exact GraphReach.root
  · have hrlen : r ≤ counts.length := by
      by_contra hgt
      have : r - 1 ≥ counts.length := by omega
      rw [List.getElem?_eq_none (by omega)] at hm
      exact Option.noConfusion hm
    have hm1 : 1 ≤ m := hpos m (List.getElem?_mem hm)
    have h0 : GraphReach counts (r, 0) := hzero r hr hrlen
    exact graphReach_ring_cells hr hm (by omega) h0 c hc

end Mazemas

namespace Mazemas

/-- Visited nodes are always nodes of the graph. -/
theorem visited_sub_allNodes (counts : List ℕ) (bp iw d : ℚ) (sinStream : ℕ → ℚ) :
    ∀ v ∈ (genLoop counts bp iw d sinStream initState).visited, v ∈ allNodes counts := by
  have := @genLoop_invariant counts bp iw d sinStream
    (fun s => ∀ v ∈ s.visited, v ∈ allNodes counts)
    (fun s hs hP => by
      rcases genStep_cases counts bp iw d sinStream s hs with
        ⟨idx, hidx, hnb, heq⟩ | ⟨idx, chosen, k', hidx, hgn, hnv, heq⟩
      · rw [heq]
        exact hP
      · rw [heq]
        intro v hv
        rcases List.mem_cons.mp hv with rfl | hold
        · exact getNeighbors_mem_allNodes hgn
        · exact hP v hold)
    initState
    (by
      intro v hv
      simp only [initState] at hv
      rcases List.mem_singleton.mp hv with rfl
      exact List.mem_cons_self _ _)
  exact this

/-- Progress dichotomy of one loop iteration: either a fresh node is visited
and appended, or the frontier shrinks by one; visited flags are never
cleared. -/
theorem genStep_progress (counts : List ℕ) (bp iw d : ℚ) (sinStream : ℕ → ℚ)
    (s : GenState) (h : s.active ≠ []) :
    (∃ x, x ∉ s.visited
      ∧ (genStep counts bp iw d sinStream s).visited = x :: s.visited
      ∧ (genStep counts bp iw d sinStream s).active.length = s.active.length + 1)
    ∨ ((genStep counts bp iw d sinStream s).visited = s.visited
      ∧ (genStep counts bp iw d sinStream s).active.length + 1 = s.active.length) := by
  rcases genStep_cases counts bp iw d sinStream s h with
    ⟨idx, hidx, hnb, heq⟩ | ⟨idx, chosen, k', hidx, hgn, hnv, heq⟩
  · right
    rw [heq]
    refine ⟨rfl, ?_⟩
    simp only [List.length_eraseIdx_of_lt hidx]
    omega
  · left
    exact ⟨chosen.node, hnv, by rw [heq], by rw [heq]; simp⟩

/-- At loop exit the visited set is closed under the neighbor relation, so it
absorbs everything reachable from the center. -/
theorem graphReach_visited {counts : List ℕ} {s : GenState}
    (inv : GenInv counts s) (hact : s.active = []) :
    ∀ v, GraphReach counts v → v ∈ s.visited := by
  intro v hreach
  induction hreach with
  | root =>
    rw [inv.visited_eq]
    exact List.mem_append_right _ (List.mem_singleton.mpr rfl)
  | step hu hn ih =>
    rcases inv.frontier_closed _ ih with hva | hclosed
    · rw [hact] at hva
      simp at hva
    · exact hclosed _ hn

end Mazemas

namespace Mazemas

/-- C1: for every config on which generation completes (the loop is total:
it is defined by well-founded recursion on `genMeasure`), the parent
structure is a spanning tree of the visited nodes: the ring-0 root is visited
and has no parent; every other visited node has a parent entry, parent keys
are recorded at most once (never reassigned: the key list is duplicate-free);
the number of recorded edges equals the number of visited nodes minus 1; and
the parent graph is acyclic and connected — from every visited node,
following parent links reaches the root. -/
theorem claim_C1_parent_structure_spanning_tree (counts : List ℕ) (difficulty : ℚ)
    (sinStream : ℕ → ℚ) :
    (runGeneration counts difficulty sinStream).visited.Nodup
    ∧ (0, 0) ∈ (runGeneration counts difficulty sinStream).visited
    ∧ (runGeneration counts difficulty sinStream).parent.lookup (0, 0) = none
    ∧ (∀ v ∈ (runGeneration counts difficulty sinStream).visited, v ≠ (0, 0) →
        ∃ p, (runGeneration counts difficulty sinStream).parent.lookup v = some p)
    ∧ ((runGeneration counts difficulty sinStream).parent.map Prod.fst).Nodup
    ∧ (runGeneration counts difficulty sinStream).edges.length + 1
        = (runGeneration counts difficulty sinStream).visited.length
    ∧ (∀ v ∈ (runGeneration counts difficulty sinStream).visited,
        ReachesRoot (runGeneration counts difficulty sinStream).parent v) := by
  have inv := genInv_runGeneration counts difficulty sinStream
  set s := runGeneration counts difficulty sinStream
  have hroot : (0, 0) ∈ s.visited := by
    rw [inv.visited_eq]
    exact List.mem_append_right _ (List.mem_singleton.mpr rfl)
  have hnodupapp : (s.parent.map Prod.fst ++ [((0 : ℕ), (0 : ℕ))]).Nodup :=
    inv.visited_eq ▸ inv.nodup
  have hdisj := List.disjoint_of_nodup_append hnodupapp
  have hrootnot : (0, 0) ∉ s.parent.map Prod.fst :=
    fun hc => hdisj hc (List.mem_singleton.mpr rfl)
  refine ⟨inv.nodup, hroot, lookup_eq_none_of_not_mem_keys hrootnot, ?_, ?_, ?_,
    reachesRoot_of_inv inv⟩
  · intro v hv hne
    apply exists_lookup_of_mem_keys
    have hmem : v ∈ s.parent.map Prod.fst ++ [((0 : ℕ), (0 : ℕ))] := inv.visited_eq ▸ hv
    rcases List.mem_append.mp hmem with h | h
    · exact h
    · exact absurd (List.mem_singleton.mp h) hne
  · exact (List.nodup_append.mp hnodupapp).1
  · have hlen := congrArg List.length inv.visited_eq
    simp only [List.length_append, List.length_map, List.length_cons,
      List.length_nil] at hlen
    have he := inv.edges_parent
    omega

/-- C4: for every config with at least one (nonempty) ring, each loop
iteration either marks an unvisited node visited or removes a node from the
active list and never un-visits a node; the loop terminates (it is a total
function, defined by well-founded recursion on `genMeasure`) with an empty
frontier, and at loop exit the visited set is exactly the whole polar graph
— every cell of every ring plus the root — so the tree spans the graph. -/
theorem claim_C4_loop_terminates_spanning (counts : List ℕ) (difficulty : ℚ)
    (sinStream : ℕ → ℚ) (h1 : counts ≠ []) (h2 : ∀ n ∈ counts, 1 ≤ n) :
    (∀ (bp iw dd : ℚ) (s : GenState), s.active ≠ [] →
      (∃ x, x ∉ s.visited
        ∧ (genStep counts bp iw dd sinStream s).visited = x :: s.visited
        ∧ (genStep counts bp iw dd sinStream s).active.length = s.active.length + 1)
      ∨ ((genStep counts bp iw dd sinStream s).visited = s.visited
        ∧ (genStep counts bp iw dd sinStream s).active.length + 1 = s.active.length))
    ∧ (runGeneration counts difficulty sinStream).active = []
    ∧ (∀ n ∈ allNodes counts, n ∈ (runGeneration counts difficulty sinStream).visited)
    ∧ (∀ n ∈ (runGeneration counts difficulty sinStream).visited, n ∈ allNodes counts) := by
  have inv := genInv_runGeneration counts difficulty sinStream
  have hact : (runGeneration counts difficulty sinStream).active = [] := by
    unfold runGeneration
    exact genLoop_active_nil initState
  refine ⟨fun bp iw dd s hs => genStep_progress counts bp iw dd sinStream s hs,
    hact, ?_, ?_⟩
  · intro n hn
    exact graphReach_visited inv hact n (graph_connected h2 n hn)
  · intro n hn
    unfold runGeneration at hn
    exact visited_sub_allNodes counts _ _ difficulty sinStream n hn

/-- Witness for C4 at the one-ring, one-cell graph. -/
theorem claim_C4_witness :
    ((([1] : List ℕ) ≠ []) ∧ (∀ n ∈ ([1] : List ℕ), 1 ≤ n))
    ∧ ((∀ (bp iw dd : ℚ) (s : GenState), s.active ≠ [] →
        (∃ x, x ∉ s.visited
          ∧ (genStep [1] bp iw dd (fun _ => 0) s).visited = x :: s.visited
          ∧ (genStep [1] bp iw dd (fun _ => 0) s).active.length = s.active.length + 1)
        ∨ ((genStep [1] bp iw dd (fun _ => 0) s).visited = s.visited
          ∧ (genStep [1] bp iw dd (fun _ => 0) s).active.length + 1 = s.active.length))
      ∧ (runGeneration [1] 0 (fun _ => 0)).active = []
      ∧ (∀ n ∈ allNodes [1], n ∈ (runGeneration [1] 0 (fun _ => 0)).visited)
      ∧ (∀ n ∈ (runGeneration [1] 0 (fun _ => 0)).visited, n ∈ allNodes [1])) :=
  ⟨⟨by decide, by decide⟩,
    claim_C4_loop_terminates_spanning [1] 0 (fun _ => 0) (by decide) (by decide)⟩

end Mazemas

namespace Mazemas

/-! ## The SVG path parser (source: `clipperUtils.ts` lines 26–258)

JS numbers are `JsNum := Option ℚ`: `none` models the non-finite values
(`NaN`, and the infinities arising from division by zero), which the source
can produce from malformed numeric arguments; `undefined` array reads are
also modelled as `none` (any arithmetic on `undefined` yields `NaN`).
`Math.sin`/`Math.cos`/`Math.atan2`/`Math.sqrt`/`Math.PI` are abstracted as a
`TrigOps` record of rational functions (every IEEE float is a rational). -/

/-- A JavaScript number: `none` is non-finite (NaN). -/
abbrev JsNum := Option ℚ

def jadd (a b : JsNum) : JsNum :=
  match a, b with
  | some x, some y => some (x + y)
  | _, _ => none

def jsub (a b : JsNum) : JsNum :=
  match a, b with
  | some x, some y => some (x - y)
  | _, _ => none

def jmul (a b : JsNum) : JsNum :=
  match a, b with
  | some x, some y => some (x * y)
  | _, _ => none

/-- Division; division by zero gives a non-finite value (`±Infinity` or
`NaN`), conflated with `none`. -/
def jdiv (a b : JsNum) : JsNum :=
  match a, b with
  | some x, some y => if y = 0 then none else some (x / y)
  | _, _ => none

def jneg (a : JsNum) : JsNum := a.map (fun x => -x)

/-- `===` comparison: false whenever either side is NaN. -/
def jeq (a b : JsNum) : Bool :=
  match a, b with
  | some x, some y => x = y
  | _, _ => false

/-- `<` comparison: false whenever either side is NaN. -/
def jlt (a b : JsNum) : Bool :=
  match a, b with
  | some x, some y => x < y
  | _, _ => false

/-- `Math.max`: NaN-propagating. -/
def jmax (a b : JsNum) : JsNum :=
  match a, b with
  | some x, some y => some (max x y)
  | _, _ => none

/-- `Math.abs`: NaN-propagating. -/
def jabs (a : JsNum) : JsNum := a.map (fun x => |x|)

/-- `Math.ceil`: NaN-propagating. -/
def jceil (a : JsNum) : JsNum := a.map (fun x => ((⌈x⌉ : ℤ) : ℚ))

/-- `Math.round(x)`: NaN-propagating. -/
def jsRoundNum (a : JsNum) : JsNum := a.map (fun x => ((jsRound x : ℤ) : ℚ))

/-- `Math.round(v * CLIPPER_SCALE)` — the fixed-point conversion applied at
every rounding site of the parser. -/
def scaleRound (v : JsNum) : JsNum := jsRoundNum (jmul v (some CLIPPER_SCALE))

/-- The point `{X: Math.round(x*CLIPPER_SCALE), Y: Math.round(y*CLIPPER_SCALE)}`. -/
def mkRounded (x y : JsNum) : ClipPoint := ⟨scaleRound x, scaleRound y⟩

/-- `args[i]`: out-of-range access yields `undefined`, whose arithmetic is
NaN — modelled as `none`. -/
def argGet (args : List JsNum) (i : ℕ) : JsNum := (args.get? i).getD none

/-- The abstracted transcendental operations (`Math.cos` etc.). -/
structure TrigOps where
  cos : ℚ → ℚ
  sin : ℚ → ℚ
  atan2 : ℚ → ℚ → ℚ
  sqrt : ℚ → ℚ
  pi : ℚ

def TrigOps.cosN (t : TrigOps) (a : JsNum) : JsNum := a.map t.cos

def TrigOps.sinN (t : TrigOps) (a : JsNum) : JsNum := a.map t.sin

def TrigOps.sqrtN (t : TrigOps) (a : JsNum) : JsNum := a.map t.sqrt

def TrigOps.atan2N (t : TrigOps) (y x : JsNum) : JsNum :=
  match y, x with
  | some a, some b => some (t.atan2 a b)
  | _, _ => none

/-- A placeholder `TrigOps` for concrete evaluation of inputs whose arcs (if
any) never reach the transcendental code path. -/
def zeroTrig : TrigOps := ⟨fun _ => 0, fun _ => 0, fun _ _ => 0, fun _ => 0, 0⟩

/-- The command characters of the regex `[MmLlHhVvAaZz]` (source line 122). -/
def isCmdChar (c : Char) : Bool :=
  c = 'M' ∨ c = 'm' ∨ c = 'L' ∨ c = 'l' ∨ c = 'H' ∨ c = 'h' ∨ c = 'V' ∨ c = 'v'
    ∨ c = 'A' ∨ c = 'a' ∨ c = 'Z' ∨ c = 'z'

/-- Single pass implementing the semantics of repeatedly matching
`([MmLlHhVvAaZz])([^MmLlHhVvAaZz]*)` via `exec` (source lines 122–125):
characters before the first command character are skipped; each command
character captures the run of non-command characters after it. -/
def lexAux : List Char → Option (Char × List Char) → List (Char × List Char)
  | [], none => []
  | [], some (c, acc) => [(c, acc.reverse)]
  | ch :: rest, none =>
    if isCmdChar ch then lexAux rest (some (ch, [])) else lexAux rest none
  | ch :: rest, some (c, acc) =>
    if isCmdChar ch then (c, acc.reverse) :: lexAux rest (some (ch, []))
    else lexAux rest (some (c, ch :: acc))

def lexCommands (cs : List Char) : List (Char × List Char) := lexAux cs none

/-- A separator character of the split regex `[\s,]+` (source line 128). -/
def isSep (c : Char) : Bool := c.isWhitespace || c = ','

mutual

/-- `split(/[\s,]+/)` (source line 128): pieces between maximal separator
runs; a leading or trailing run contributes an empty piece. -/
def splitRuns : List Char → List Char → List (List Char)
  | [], acc => [acc.reverse]
  | c :: rest, acc =>
    if isSep c then acc.reverse :: skipRun rest else splitRuns rest (c :: acc)

def skipRun : List Char → List (List Char)
  | [] => [[]]
  | c :: rest => if isSep c then skipRun rest else splitRuns rest [c]

end

/-- `String.prototype.trim` (source line 127): strip whitespace both ends. -/
def trimChars (cs : List Char) : List Char :=
  ((cs.dropWhile Char.isWhitespace).reverse.dropWhile Char.isWhitespace).reverse

def digitsVal (cs : List Char) : ℕ :=
  cs.foldl (fun a c => a * 10 + (c.toNat - 48)) 0

/-- `Number(str)` (source line 128), as a partial model of the JS builtin,
faithful on the decimal numerals this mini-language uses: the empty string
is 0; an optional sign, integer digits and an optional fraction; anything
else (including the exponent and hex forms not used here) is NaN. -/
def parseNumber (cs : List Char) : JsNum :=
  match cs with
  | [] => some 0
  | _ =>
    let (sgn, body) :=
      match cs with
      | '-' :: t => ((-1 : ℚ), t)
      | '+' :: t => ((1 : ℚ), t)
      | _ => ((1 : ℚ), cs)
    let intPart := body.takeWhile (fun c => c ≠ '.')
    let rest := body.dropWhile (fun c => c ≠ '.')
    let fracPart :=
      match rest with
      | [] => []
      | _ :: t => t
    if intPart.all Char.isDigit ∧ fracPart.all Char.isDigit
        ∧ (intPart ≠ [] ∨ fracPart ≠ [])
    then some (sgn * ((digitsVal intPart : ℚ)
      + (digitsVal fracPart : ℚ) / ((10 : ℚ) ^ fracPart.length)))
    else none

/-- Argument-list parsing (source lines 127–128): trim, then if empty no
arguments, else split on separator runs and convert each piece with
`Number`. -/
def parseArgs (chunk : List Char) : List JsNum :=
  let trimmed := trimChars chunk
  if trimmed = [] then [] else (splitRuns trimmed []).map parseNumber

end Mazemas

namespace Mazemas

/-- `arcToPoints` (source lines 26–107): flattens one SVG elliptical arc into
line-segment endpoints via the standard endpoint-to-center parameterization.
In the degenerate cases (coincident endpoints or a zero radius, line 39) a
single UNROUNDED point `{X: endX*CLIPPER_SCALE, Y: endY*CLIPPER_SCALE}` is
returned; otherwise every emitted coordinate passes through
`Math.round(_ * CLIPPER_SCALE)`. -/
def arcToPoints (t : TrigOps) (startX startY rx0 ry0 xAxisRotation largeArcFlag
    sweepFlag endX endY : JsNum) (segmentsPerArc : ℕ := 32) : List ClipPoint :=
  if (jeq startX endX && jeq startY endY) || jeq rx0 (some 0) || jeq ry0 (some 0) then
    [⟨jmul endX (some CLIPPER_SCALE), jmul endY (some CLIPPER_SCALE)⟩]
  else
    let pi : JsNum := some t.pi
    let phi := jdiv (jmul xAxisRotation pi) (some 180)
    let cosPhi := t.cosN phi
    let sinPhi := t.sinN phi
    let dx := jdiv (jsub startX endX) (some 2)
    let dy := jdiv (jsub startY endY) (some 2)
    let x1p := jadd (jmul cosPhi dx) (jmul sinPhi dy)
    let y1p := jadd (jmul (jneg sinPhi) dx) (jmul cosPhi dy)
    let rxSq0 := jmul rx0 rx0
    let rySq0 := jmul ry0 ry0
    let x1pSq := jmul x1p x1p
    let y1pSq := jmul y1p y1p
    let lam := jadd (jdiv x1pSq rxSq0) (jdiv y1pSq rySq0)
    let rx := if jlt (some 1) lam then jmul rx0 (t.sqrtN lam) else rx0
    let ry := if jlt (some 1) lam then jmul ry0 (t.sqrtN lam) else ry0
    let rxSq := if jlt (some 1) lam then jmul rx rx else rxSq0
    let rySq := if jlt (some 1) lam then jmul ry ry else rySq0
    let sq0 := jmax (some 0) (jdiv
      (jsub (jsub (jmul rxSq rySq) (jmul rxSq y1pSq)) (jmul rySq x1pSq))
      (jadd (jmul rxSq y1pSq) (jmul rySq x1pSq)))
    let sq1 := t.sqrtN sq0
    let sq := if jeq largeArcFlag sweepFlag then jneg sq1 else sq1
    let cxp := jdiv (jmul sq (jmul rx y1p)) ry
    let cyp := jdiv (jmul sq (jneg (jmul ry x1p))) rx
    let cx := jadd (jsub (jmul cosPhi cxp) (jmul sinPhi cyp))
      (jdiv (jadd startX endX) (some 2))
    let cy := jadd (jadd (jmul sinPhi cxp) (jmul cosPhi cyp))
      (jdiv (jadd startY endY) (some 2))
    let theta1 := t.atan2N (jdiv (jsub y1p cyp) ry) (jdiv (jsub x1p cxp) rx)
    let dtheta0 := jsub (t.atan2N (jdiv (jsub (jneg y1p) cyp) ry)
      (jdiv (jsub (jneg x1p) cxp) rx)) theta1
    let twoPi := jmul (some 2) pi
    let dtheta :=
      if jeq sweepFlag (some 0) && jlt (some 0) dtheta0 then jsub dtheta0 twoPi
      else if jeq sweepFlag (some 1) && jlt dtheta0 (some 0) then jadd dtheta0 twoPi
      else dtheta0
    let numSegments := jmax (some 1) (jceil (jdiv (jabs dtheta)
      (jdiv pi (some (segmentsPerArc : ℚ)))))
    let iterCount : ℕ :=
      match numSegments with
      | none => 0
      | some q => (⌊q⌋).toNat
    (List.range iterCount).map (fun j =>
      let i : JsNum := some ((j + 1 : ℕ) : ℚ)
      let ti := jadd theta1 (jmul (jdiv i numSegments) dtheta)
      let xr := jmul rx (t.cosN ti)
      let yr := jmul ry (t.sinN ti)
      let x := jadd (jsub (jmul cosPhi xr) (jmul sinPhi yr)) cx
      let y := jadd (jadd (jmul sinPhi xr) (jmul cosPhi yr)) cy
      mkRounded x y)

/-- One recorded invocation of `arcToPoints` by the parser. -/
structure ArcCall where
  startX : JsNum
  startY : JsNum
  rx : JsNum
  ry : JsNum
  rot : JsNum
  laf : JsNum
  sf : JsNum
  endX : JsNum
  endY : JsNum

/-- The degenerate-case test of `arcToPoints` (source line 39). -/
def ArcCall.degen (c : ArcCall) : Bool :=
  (jeq c.startX c.endX && jeq c.startY c.endY) || jeq c.rx (some 0) || jeq c.ry (some 0)

def runArcCall (t : TrigOps) (c : ArcCall) : List ClipPoint :=
  arcToPoints t c.startX c.startY c.rx c.ry c.rot c.laf c.sf c.endX c.endY

/-- The `arcToPoints` invocations of the absolute-arc loop (source lines
211–222): 7-argument chunks, the current position threaded through
(`currentX = args[i+5]` after each chunk, i.e. the chunk's `endX`); a final
partial chunk reads `undefined` (NaN, here `none`) for missing arguments. -/
def arcCallsAbs : JsNum → JsNum → List JsNum → List ArcCall
  | _, _, [] => []
  | cx, cy, [a0] => [⟨cx, cy, a0, none, none, none, none, none, none⟩]
  | cx, cy, [a0, a1] => [⟨cx, cy, a0, a1, none, none, none, none, none⟩]
  | cx, cy, [a0, a1, a2] => [⟨cx, cy, a0, a1, a2, none, none, none, none⟩]
  | cx, cy, [a0, a1, a2, a3] => [⟨cx, cy, a0, a1, a2, a3, none, none, none⟩]
  | cx, cy, [a0, a1, a2, a3, a4] => [⟨cx, cy, a0, a1, a2, a3, a4, none, none⟩]
  | cx, cy, [a0, a1, a2, a3, a4, a5] => [⟨cx, cy, a0, a1, a2, a3, a4, a5, none⟩]
  | cx, cy, a0 :: a1 :: a2 :: a3 :: a4 :: a5 :: a6 :: rest =>
    ⟨cx, cy, a0, a1, a2, a3, a4, a5, a6⟩ :: arcCallsAbs a5 a6 rest

/-- The `arcToPoints` invocations of the relative-arc loop (source lines
226–239): the endpoint is `currentX + args[i+5]` (NaN when missing). -/
def arcCallsRel : JsNum → JsNum → List JsNum → List ArcCall
  | _, _, [] => []
  | cx, cy, [a0] => [⟨cx, cy, a0, none, none, none, none, none, none⟩]
  | cx, cy, [a0, a1] => [⟨cx, cy, a0, a1, none, none, none, none, none⟩]
  | cx, cy, [a0, a1, a2] => [⟨cx, cy, a0, a1, a2, none, none, none, none⟩]
  | cx, cy, [a0, a1, a2, a3] => [⟨cx, cy, a0, a1, a2, a3, none, none, none⟩]
  | cx, cy, [a0, a1, a2, a3, a4] => [⟨cx, cy, a0, a1, a2, a3, a4, none, none⟩]
  | cx, cy, [a0, a1, a2, a3, a4, a5] =>
    [⟨cx, cy, a0, a1, a2, a3, a4, jadd cx a5, none⟩]
  | cx, cy, a0 :: a1 :: a2 :: a3 :: a4 :: a5 :: a6 :: rest =>
    ⟨cx, cy, a0, a1, a2, a3, a4, jadd cx a5, jadd cy a6⟩ ::
      arcCallsRel (jadd cx a5) (jadd cy a6) rest

end Mazemas

namespace Mazemas

/-- The parser's mutable state (source lines 114–119). -/
structure ParseState where
  paths : List (List ClipPoint)
  currentPath : List ClipPoint
  currentX : JsNum
  currentY : JsNum
  startX : JsNum
  startY : JsNum

/-- `(x, y)` coordinate pairs of a command's argument list, as consumed by
the loops `for (i = 0; i < args.length; i += 2)`: a trailing odd argument is
paired with `undefined` (NaN). -/
def pairsOf : List JsNum → List (JsNum × JsNum)
  | [] => []
  | [x] => [(x, none)]
  | x :: y :: rest => (x, y) :: pairsOf rest

/-- Absolute line-to processing of a pair list (source lines 166–172). -/
def absPairsFold (st : ParseState) (ps : List (JsNum × JsNum)) : ParseState :=
  ps.foldl (fun s p =>
    { s with currentX := p.1, currentY := p.2,
             currentPath := s.currentPath ++ [mkRounded p.1 p.2] }) st

/-- Relative line-to processing of a pair list (source lines 174–180). -/
def relPairsFold (st : ParseState) (ps : List (JsNum × JsNum)) : ParseState :=
  ps.foldl (fun s p =>
    let nx := jadd s.currentX p.1
    let ny := jadd s.currentY p.2
    { s with currentX := nx, currentY := ny,
             currentPath := s.currentPath ++ [mkRounded nx ny] }) st

/-- Absolute horizontal line-to processing (source lines 182–187). -/
def hAbsFold (st : ParseState) (args : List JsNum) : ParseState :=
  args.foldl (fun s x =>
    { s with currentX := x,
             currentPath := s.currentPath ++ [mkRounded x s.currentY] }) st

/-- Relative horizontal line-to processing (source lines 189–194). -/
def hRelFold (st : ParseState) (args : List JsNum) : ParseState :=
  args.foldl (fun s dx =>
    let nx := jadd s.currentX dx
    { s with currentX := nx,
             currentPath := s.currentPath ++ [mkRounded nx s.currentY] }) st

/-- Absolute vertical line-to processing (source lines 196–201). -/
def vAbsFold (st : ParseState) (args : List JsNum) : ParseState :=
  args.foldl (fun s y =>
    { s with currentY := y,
             currentPath := s.currentPath ++ [mkRounded s.currentX y] }) st

/-- Relative vertical line-to processing (source lines 203–208). -/
def vRelFold (st : ParseState) (args : List JsNum) : ParseState :=
  args.foldl (fun s dy =>
    let ny := jadd s.currentY dy
    { s with currentY := ny,
             currentPath := s.currentPath ++ [mkRounded s.currentX ny] }) st

/-- One `switch` dispatch of the parser loop (source lines 130–250). -/
def stepCmd (t : TrigOps) (st : ParseState) (cmd : Char) (args : List JsNum) :
    ParseState :=
  if cmd = 'M' then
    let x0 := argGet args 0
    let y0 := argGet args 1
    let base : ParseState :=
      { paths := if st.currentPath = [] then st.paths else st.paths ++ [st.currentPath],
        currentPath := [mkRounded x0 y0],
        currentX := x0, currentY := y0, startX := x0, startY := y0 }
    absPairsFold base (pairsOf (args.drop 2))
  else if cmd = 'm' then
    let x0 := jadd st.currentX (argGet args 0)
    let y0 := jadd st.currentY (argGet args 1)
    let base : ParseState :=
      { paths := if st.currentPath = [] then st.paths else st.paths ++ [st.currentPath],
        currentPath := [mkRounded x0 y0],
        currentX := x0, currentY := y0, startX := x0, startY := y0 }
    relPairsFold base (pairsOf (args.drop 2))
  else if cmd = 'L' then
    absPairsFold st (pairsOf args)
  else if cmd = 'l' then
    relPairsFold st (pairsOf args)
  else if cmd = 'H' then
    hAbsFold st args
  else if cmd = 'h' then
    hRelFold st args
  else if cmd = 'V' then
    vAbsFold st args
  else if cmd = 'v' then
    vRelFold st args
  else if cmd = 'A' then
    let calls := arcCallsAbs st.currentX st.currentY args
    { st with
      currentPath := st.currentPath ++ calls.flatMap (runArcCall t),
      currentX := match calls.getLast? with
        | none => st.currentX
        | some c => c.endX,
      currentY := match calls.getLast? with
        | none => st.currentY
        | some c => c.endY }
  else if cmd = 'a' then
    let calls := arcCallsRel st.currentX st.currentY args
    { st with
      currentPath := st.currentPath ++ calls.flatMap (runArcCall t),
      currentX := match calls.getLast? with
        | none => st.currentX
        | some c => c.endX,
      currentY := match calls.getLast? with
        | none => st.currentY
        | some c => c.endY }
  else if cmd = 'Z' ∨ cmd = 'z' then
    { st with
      currentPath := if st.currentPath = [] then st.currentPath
        else st.currentPath ++ [mkRounded st.startX st.startY],
      currentX := st.startX, currentY := st.startY }
  else st

/-- The arc calls a command issues from a given state. -/
def arcCallsCmd (st : ParseState) (cmd : Char) (args : List JsNum) : List ArcCall :=
  if cmd = 'A' then arcCallsAbs st.currentX st.currentY args
  else if cmd = 'a' then arcCallsRel st.currentX st.currentY args
  else []

/-- The parser's initial state (source lines 114–119). -/
def initParse : ParseState :=
  { paths := [], currentPath := [], currentX := some 0, currentY := some 0,
    startX := some 0, startY := some 0 }

/-- Processing of one lexed command: argument parsing plus dispatch. -/
def parseStep (t : TrigOps) (s : ParseState) (c : Char × List Char) : ParseState :=
  stepCmd t s c.1 (parseArgs c.2)

/-- `svgPathToClipperPaths` (source lines 113–258): lex the command stream,
fold the dispatcher over it, then append any open trailing sub-path. -/
def svgPathToClipperPaths (t : TrigOps) (pathD : String) : List (List ClipPoint) :=
  let final := (lexCommands pathD.toList).foldl (parseStep t) initParse
  if final.currentPath = [] then final.paths else final.paths ++ [final.currentPath]

/-- `parseStep` instrumented with the `arcToPoints` invocations it makes. -/
def traceStep (t : TrigOps) (p : ParseState × List ArcCall) (c : Char × List Char) :
    ParseState × List ArcCall :=
  (parseStep t p.1 c, p.2 ++ arcCallsCmd p.1 c.1 (parseArgs c.2))

/-- All `arcToPoints` invocations a parse performs, in order. -/
def parseArcCalls (t : TrigOps) (pathD : String) : List ArcCall :=
  ((lexCommands pathD.toList).foldl (traceStep t) (initParse, [])).2

end Mazemas

namespace Mazemas

/-! ## Integrality of parsed coordinates -/

/-- A finite JS number that is an integer (NaN passes vacuously). -/
def intOrNaN (v : JsNum) : Prop := ∀ q ∈ v, q.den = 1

/-- Both coordinates finite-integer or NaN. -/
def pointIntOrNaN (p : ClipPoint) : Prop := intOrNaN p.X ∧ intOrNaN p.Y

theorem intOrNaN_scaleRound (v : JsNum) : intOrNaN (scaleRound v) := by
  intro q hq
  match v with
  | none => simp [scaleRound, jsRoundNum, jmul] at hq
  | some x =>
    simp only [scaleRound, jsRoundNum, jmul, Option.map_some', Option.mem_def,
      Option.some_inj] at hq
    rw [← hq]
    exact Rat.den_intCast _

theorem mkRounded_ok (x y : JsNum) : pointIntOrNaN (mkRounded x y) :=
  ⟨intOrNaN_scaleRound x, intOrNaN_scaleRound y⟩

theorem runArcCall_degen (t : TrigOps) (c : ArcCall) (h : c.degen = true) :
    runArcCall t c
      = [⟨jmul c.endX (some CLIPPER_SCALE), jmul c.endY (some CLIPPER_SCALE)⟩] := by
  unfold runArcCall arcToPoints
  unfold ArcCall.degen at h
  rw [if_pos h]

theorem runArcCall_nondegen_ok (t : TrigOps) (c : ArcCall) (h : c.degen = false) :
    ∀ pt ∈ runArcCall t c, pointIntOrNaN pt := by
  intro pt hpt
  unfold runArcCall arcToPoints at hpt
  unfold ArcCall.degen at h
  rw [if_neg (by simp [h])] at hpt
  obtain ⟨j, hj, hpt2⟩ := List.mem_map.mp hpt
  rw [← hpt2]
  exact mkRounded_ok _ _

/-- All points recorded so far are integer-or-NaN valued. -/
def stateOk (st : ParseState) : Prop :=
  (∀ path ∈ st.paths, ∀ pt ∈ path, pointIntOrNaN pt)
    ∧ (∀ pt ∈ st.currentPath, pointIntOrNaN pt)

theorem absPairsFold_ok {st : ParseState} {ps : List (JsNum × JsNum)}
    (h : stateOk st) : stateOk (absPairsFold st ps) := by
  induction ps generalizing st with
  | nil => exact h
  | cons p rest ih =>
    apply ih
    refine ⟨h.1, ?_⟩
    intro pt hpt
    rcases List.mem_append.mp hpt with hold | hnew
    · exact h.2 pt hold
    · rw [List.mem_singleton.mp hnew]
      exact mkRounded_ok _ _

theorem relPairsFold_ok {st : ParseState} {ps : List (JsNum × JsNum)}
    (h : stateOk st) : stateOk (relPairsFold st ps) := by
  induction ps generalizing st with
  | nil => exact h
  | cons p rest ih =>
    apply ih
    refine ⟨h.1, ?_⟩
    intro pt hpt
    rcases List.mem_append.mp hpt with hold | hnew
    · exact h.2 pt hold
    · rw [List.mem_singleton.mp hnew]
      exact mkRounded_ok _ _

theorem hAbsFold_ok {st : ParseState} {args : List JsNum}
    (h : stateOk st) : stateOk (hAbsFold st args) := by
  induction args generalizing st with
  | nil => exact h
  | cons x rest ih =>
    apply ih
    refine ⟨h.1, ?_⟩
    intro pt hpt
    rcases List.mem_append.mp hpt with hold | hnew
    · exact h.2 pt hold
    · rw [List.mem_singleton.mp hnew]
      exact mkRounded_ok _ _

theorem hRelFold_ok {st : ParseState} {args : List JsNum}
    (h : stateOk st) : stateOk (hRelFold st args) := by
  induction args generalizing st with
  | nil => exact h
  | cons x rest ih =>
    apply ih
    refine ⟨h.1, ?_⟩
    intro pt hpt
    rcases List.mem_append.mp hpt with hold | hnew
    · exact h.2 pt hold
    · rw [List.mem_singleton.mp hnew]
      exact mkRounded_ok _ _

theorem vAbsFold_ok {st : ParseState} {args : List JsNum}
    (h : stateOk st) : stateOk (vAbsFold st args) := by
  induction args generalizing st with
  | nil => exact h
  | cons x rest ih =>
    apply ih
    refine ⟨h.1, ?_⟩
    intro pt hpt
    rcases List.mem_append.mp hpt with hold | hnew
    · exact h.2 pt hold
    · rw [List.mem_singleton.mp hnew]
      exact mkRounded_ok _ _

theorem vRelFold_ok {st : ParseState} {args : List JsNum}
    (h : stateOk st) : stateOk (vRelFold st args) := by
  induction args generalizing st with
  | nil => exact h
  | cons x rest ih =>
    apply ih
    refine ⟨h.1, ?_⟩
    intro pt hpt
    rcases List.mem_append.mp hpt with hold | hnew
    · exact h.2 pt hold
    · rw [List.mem_singleton.mp hnew]
      exact mkRounded_ok _ _

theorem stepCmd_ok {t : TrigOps} {st : ParseState} {cmd : Char} {args : List JsNum}
    (h : stateOk st) (hnd : ∀ c ∈ arcCallsCmd st cmd args, c.degen = false) :
    stateOk (stepCmd t st cmd args) := by
  have hpushed : ∀ path ∈ (if st.currentPath = [] then st.paths
      else st.paths ++ [st.currentPath]), ∀ pt ∈ path, pointIntOrNaN pt := by
    intro path hpath
    by_cases hc : st.currentPath = []
    · rw [if_pos hc] at hpath
      exact h.1 path hpath
    · rw [if_neg hc] at hpath
      rcases List.mem_append.mp hpath with hold | hnew
      · exact h.1 path hold
      · rw [List.mem_singleton.mp hnew]
        exact h.2
  unfold stepCmd
  by_cases hM : cmd = 'M'
  · rw [if_pos hM]
    apply absPairsFold_ok
    refine ⟨hpushed, ?_⟩
    intro pt hpt
    rw [List.mem_singleton.mp hpt]
    exact mkRounded_ok _ _
  rw [if_neg hM]
  by_cases hm : cmd = 'm'
  · rw [if_pos hm]
    apply relPairsFold_ok
    refine ⟨hpushed, ?_⟩
    intro pt hpt
    rw [List.mem_singleton.mp hpt]
    exact mkRounded_ok _ _
  rw [if_neg hm]
  by_cases hL : cmd = 'L'
  · rw [if_pos hL]
    exact absPairsFold_ok h
  rw [if_neg hL]
  by_cases hl : cmd = 'l'
  · rw [if_pos hl]
    exact relPairsFold_ok h
  rw [if_neg hl]
  by_cases hH : cmd = 'H'
  · rw [if_pos hH]
    exact hAbsFold_ok h
  rw [if_neg hH]
  by_cases hh : cmd = 'h'
  · rw [if_pos hh]
    exact hRelFold_ok h
  rw [if_neg hh]
  by_cases hV : cmd = 'V'
  · rw [if_pos hV]
    exact vAbsFold_ok h
  rw [if_neg hV]
  by_cases hv : cmd = 'v'
  · rw [if_pos hv]
    exact vRelFold_ok h
  rw [if_neg hv]
  by_cases hA : cmd = 'A'
  · rw [if_pos hA]
    refine ⟨h.1, ?_⟩
    intro pt hpt
    rcases List.mem_append.mp hpt with hold | hnew
    · exact h.2 pt hold
    · obtain ⟨call, hcall, hptc⟩ := List.mem_flatMap.mp hnew
      have hdeg : call.degen = false := by
        apply hnd
        unfold arcCallsCmd
        rw [if_pos hA]
        exact hcall
      exact runArcCall_nondegen_ok t call hdeg pt hptc
  rw [if_neg hA]
  by_cases ha : cmd = 'a'
  · rw [if_pos ha]
    refine ⟨h.1, ?_⟩
    intro pt hpt
    rcases List.mem_append.mp hpt with hold | hnew
    · exact h.2 pt hold
    · obtain ⟨call, hcall, hptc⟩ := List.mem_flatMap.mp hnew
      have hdeg : call.degen = false := by
        apply hnd
        unfold arcCallsCmd
        rw [if_neg hA, if_pos ha]
        exact hcall
      exact runArcCall_nondegen_ok t call hdeg pt hptc
  rw [if_neg ha]
  by_cases hZ : cmd = 'Z' ∨ cmd = 'z'
  · rw [if_pos hZ]
    refine ⟨h.1, ?_⟩
    intro pt hpt
    by_cases hc : st.currentPath = []
    · rw [if_pos hc] at hpt
      exact h.2 pt hpt
    · rw [if_neg hc] at hpt
      rcases List.mem_append.mp hpt with hold | hnew
      · exact h.2 pt hold
      · rw [List.mem_singleton.mp hnew]
        exact mkRounded_ok _ _
  rw [if_neg hZ]
  exact h

end Mazemas

namespace Mazemas

theorem traceStep_fst (t : TrigOps) (cmds : List (Char × List Char))
    (st : ParseState) (acc : List ArcCall) :
    (cmds.foldl (traceStep t) (st, acc)).1 = cmds.foldl (parseStep t) st := by
  induction cmds generalizing st acc with
  | nil => rfl
  | cons c rest ih => exact ih _ _

theorem trace_acc (t : TrigOps) (cmds : List (Char × List Char))
    (st : ParseState) (acc : List ArcCall) :
    (cmds.foldl (traceStep t) (st, acc)).2
      = acc ++ (cmds.foldl (traceStep t) (st, [])).2 := by
  induction cmds generalizing st acc with
  | nil => simp
  | cons c rest ih =>
    simp only [List.foldl_cons, traceStep]
    rw [ih (parseStep t st c) (acc ++ arcCallsCmd st c.1 (parseArgs c.2)),
      ih (parseStep t st c) ([] ++ arcCallsCmd st c.1 (parseArgs c.2))]
    simp

/-- If every arc call in the trace is non-degenerate, the parse state stays
integer-valued. -/
theorem foldl_parseStep_ok (t : TrigOps) (cmds : List (Char × List Char)) :
    ∀ st : ParseState, stateOk st →
    (∀ c ∈ (cmds.foldl (traceStep t) (st, [])).2, c.degen = false) →
    stateOk (cmds.foldl (parseStep t) st) := by
  induction cmds with
  | nil =>
    intro st h _
    exact h
  | cons c rest ih =>
    intro st h hnd
    simp only [List.foldl_cons, traceStep] at hnd ⊢
    rw [trace_acc t rest (parseStep t st c) ([] ++ arcCallsCmd st c.1 (parseArgs c.2))]
      at hnd
    simp only [List.nil_append, List.mem_append] at hnd
    refine ih (parseStep t st c) (stepCmd_ok h ?_) ?_
    · intro cc hcc
      exact hnd cc (Or.inl hcc)
    · intro cc hcc
      exact hnd cc (Or.inr hcc)

/-- Prefixes free of command characters are skipped by the lexer. -/
theorem lexAux_junk (pre rest : List Char) (h : ∀ c ∈ pre, isCmdChar c = false) :
    lexAux (pre ++ rest) none = lexAux rest none := by
  induction pre with
  | nil => rfl
  | cons c tl ih =>
    simp only [List.cons_append, lexAux, h c (List.mem_cons_self c tl)]
    simp only [Bool.false_eq_true, if_false]
    exact ih (fun x hx => h x (List.mem_cons_of_mem c hx))

end Mazemas

namespace Mazemas

set_option maxRecDepth 10000 in
set_option maxHeartbeats 2000000 in
/-- C3 counterexample: the claim asserts a distinct `ParseError` on
unrecognized command tokens or malformed argument lists, with no partial
point sequence returned.  In fact the command regex silently skips the
unrecognized tokens `X 1 2` and parsing proceeds, returning the points of
the recognized `M` command; and a malformed (truncated) argument list is not
rejected: `M 1` yields a point with NaN Y. -/
theorem claim_C3_counterexample :
    svgPathToClipperPaths zeroTrig "X 1 2 M 3 4"
        = [[⟨some 3000, some 4000⟩]]
      ∧ svgPathToClipperPaths zeroTrig "M 1" = [[⟨some 1000, none⟩]] := by
  constructor
  · norm_num +decide [svgPathToClipperPaths, lexCommands, lexAux, isCmdChar, parseStep,
      stepCmd, parseArgs, trimChars, splitRuns, skipRun, isSep, parseNumber, digitsVal,
      pairsOf, absPairsFold, argGet, mkRounded, scaleRound, jsRoundNum, jmul, jsRound,
      initParse, CLIPPER_SCALE, show ('3').toNat = 51 from by decide,
      show ('4').toNat = 52 from by decide]
  · norm_num +decide [svgPathToClipperPaths, lexCommands, lexAux, isCmdChar, parseStep,
      stepCmd, parseArgs, trimChars, splitRuns, skipRun, isSep, parseNumber, digitsVal,
      pairsOf, absPairsFold, argGet, mkRounded, scaleRound, jsRoundNum, jmul, jsRound,
      initParse, CLIPPER_SCALE, show ('1').toNat = 49 from by decide]

/-- C3 (amended): the parser is a total function with no error channel;
any prefix free of command characters is silently skipped (parsing
`junk ++ d` equals parsing `d`), and malformed numeric argument lists are
not rejected (missing arguments become NaN coordinates, see the
counterexample). -/
theorem claim_C3_tokens_silently_skipped (t : TrigOps) (pre rest : List Char)
    (h : ∀ c ∈ pre, isCmdChar c = false) :
    svgPathToClipperPaths t (String.mk (pre ++ rest))
      = svgPathToClipperPaths t (String.mk rest) := by
  unfold svgPathToClipperPaths lexCommands
  rw [show (String.mk (pre ++ rest)).toList = pre ++ rest from rfl,
    show (String.mk rest).toList = rest from rfl, lexAux_junk pre rest h]

/-- Witness for the amended C3 at a concrete junk prefix. -/
theorem claim_C3_witness :
    (∀ c ∈ ['X', ' ', '1', ' '], isCmdChar c = false)
    ∧ svgPathToClipperPaths zeroTrig (String.mk (['X', ' ', '1', ' '] ++ ['M', ' ', '5']))
      = svgPathToClipperPaths zeroTrig (String.mk ['M', ' ', '5']) :=
  ⟨by decide, claim_C3_tokens_silently_skipped zeroTrig _ _ (by decide)⟩

set_option maxRecDepth 10000 in
set_option maxHeartbeats 2000000 in
/-- C9 counterexample: the claim asserts every coordinate produced by the
parser — including degenerate-arc cases — is an integer equal to
`round(1000·mm)`.  The degenerate-arc shortcut (zero radius here) emits the
end point scaled but UNROUNDED: for end x-coordinate 1.0005 the emitted X is
1000.5, not an integer, while rounding would give 1001. -/
theorem claim_C9_counterexample :
    svgPathToClipperPaths zeroTrig "A 0 0 0 0 0 .0005 2"
        = [[⟨some (1 / 2), some 2000⟩]]
      ∧ ((1 : ℚ) / 2).den ≠ 1
      ∧ jsRound ((5 / 10000 : ℚ) * 1000) = 1 := by
  refine ⟨?_, ?_, ?_⟩
  · have hlex : lexCommands ['A', ' ', '0', ' ', '0', ' ', '0', ' ', '0', ' ', '0',
          ' ', '.', '0', '0', '0', '5', ' ', '2']
        = [('A', [' ', '0', ' ', '0', ' ', '0', ' ', '0', ' ', '0', ' ',
            '.', '0', '0', '0', '5', ' ', '2'])] := by
      with_unfolding_all decide
    have hargs : parseArgs [' ', '0', ' ', '0', ' ', '0', ' ', '0', ' ', '0', ' ',
          '.', '0', '0', '0', '5', ' ', '2']
        = [some 0, some 0, some 0, some 0, some 0, some (1/2000), some 2] := by
      with_unfolding_all decide
    have hdeg : (ArcCall.mk (some 0) (some 0) (some 0) (some 0) (some 0) (some 0)
        (some 0) (some (1/2000)) (some 2)).degen = true := by
      with_unfolding_all decide
    have hrun := runArcCall_degen zeroTrig _ hdeg
    have hp0 : parseNumber ['0'] = some 0 := by with_unfolding_all decide
    have hp5 : parseNumber ['.', '0', '0', '0', '5'] = some (1/2000) := by
      with_unfolding_all decide
    have hp2 : parseNumber ['2'] = some 2 := by with_unfolding_all decide
    norm_num +decide [svgPathToClipperPaths, hlex, parseStep, stepCmd, hargs,
      arcCallsAbs, hrun, hp0, hp5, hp2, arcCallsCmd, jmul, initParse, CLIPPER_SCALE]
  · have hd : ((1 : ℚ) / 2).den = 2 := by
      norm_num [Rat.den]
    rw [hd]
    decide
  · norm_num [jsRound]

/-- C9 (amended): every coordinate the parser produces is
`Math.round(1000·mm)` — an integer (or NaN from malformed input) — EXCEPT
the points emitted by the degenerate-arc shortcut (coincident endpoints or a
zero radius), which are `1000·(end coordinate)` without rounding and can be
non-integral: degenerate arc calls return exactly the unrounded scaled end
point; non-degenerate arc flattening yields only rounded (integer-or-NaN)
coordinates; and a parse whose arc calls are all non-degenerate yields only
integer-or-NaN coordinates, for the fixed scale factor 1000. -/
theorem claim_C9_fixed_point_scaling :
    (∀ (t : TrigOps) (c : ArcCall), c.degen = true →
      runArcCall t c
        = [⟨jmul c.endX (some CLIPPER_SCALE), jmul c.endY (some CLIPPER_SCALE)⟩])
    ∧ (∀ (t : TrigOps) (c : ArcCall), c.degen = false →
      ∀ pt ∈ runArcCall t c, pointIntOrNaN pt)
    ∧ (∀ (t : TrigOps) (d : String), (∀ c ∈ parseArcCalls t d, c.degen = false) →
      ∀ path ∈ svgPathToClipperPaths t d, ∀ pt ∈ path, pointIntOrNaN pt) := by
  refine ⟨runArcCall_degen, runArcCall_nondegen_ok, ?_⟩
  intro t d hnd path hpath pt hpt
  have hok : stateOk ((lexCommands d.toList).foldl (parseStep t) initParse) := by
    apply foldl_parseStep_ok
    · constructor
      · intro p hp
        simp [initParse] at hp
      · intro p hp
        simp [initParse] at hp
    · exact hnd
  simp only [svgPathToClipperPaths] at hpath
  by_cases hc : ((lexCommands d.toList).foldl (parseStep t) initParse).currentPath = []
  · rw [if_pos hc] at hpath
    exact hok.1 path hpath pt hpt
  · rw [if_neg hc] at hpath
    rcases List.mem_append.mp hpath with hold | hnew
    · exact hok.1 path hold pt hpt
    · rw [List.mem_singleton.mp hnew] at hpt
      exact hok.2 pt hpt

set_option maxRecDepth 10000 in
set_option maxHeartbeats 2000000 in
/-- Witness for the amended C9: a degenerate call, a non-degenerate call and
an arc-free parse. -/
theorem claim_C9_witness :
    ((ArcCall.mk (some 0) (some 0) (some 0) (some 1) (some 0) (some 0) (some 0)
        (some 5) (some 6)).degen = true
      ∧ runArcCall zeroTrig (ArcCall.mk (some 0) (some 0) (some 0) (some 1)
          (some 0) (some 0) (some 0) (some 5) (some 6))
        = [⟨jmul (some 5) (some CLIPPER_SCALE), jmul (some 6) (some CLIPPER_SCALE)⟩])
    ∧ ((ArcCall.mk (some 0) (some 0) (some 1) (some 1) (some 0) (some 0) (some 0)
        (some 5) (some 6)).degen = false
      ∧ ∀ pt ∈ runArcCall zeroTrig (ArcCall.mk (some 0) (some 0) (some 1) (some 1)
          (some 0) (some 0) (some 0) (some 5) (some 6)), pointIntOrNaN pt)
    ∧ ((∀ c ∈ parseArcCalls zeroTrig "L 1", c.degen = false)
      ∧ ∀ path ∈ svgPathToClipperPaths zeroTrig "L 1",
          ∀ pt ∈ path, pointIntOrNaN pt) :=
  ⟨⟨by norm_num +decide [ArcCall.degen, jeq],
    claim_C9_fixed_point_scaling.1 zeroTrig _ (by norm_num +decide [ArcCall.degen, jeq])⟩,
   ⟨by norm_num +decide [ArcCall.degen, jeq],
    claim_C9_fixed_point_scaling.2.1 zeroTrig _ (by norm_num +decide [ArcCall.degen, jeq])⟩,
   ⟨by
      have hcalls : parseArcCalls zeroTrig "L 1" = [] := by
        norm_num +decide [parseArcCalls, lexCommands, lexAux, isCmdChar, traceStep,
          parseStep, stepCmd, arcCallsCmd, parseArgs, trimChars, splitRuns, skipRun,
          isSep, parseNumber, digitsVal, pairsOf, absPairsFold, argGet, mkRounded,
          scaleRound, jsRoundNum, jmul, jsRound, initParse, CLIPPER_SCALE]
      rw [hcalls]
      intro c hc
      simp at hc,
    claim_C9_fixed_point_scaling.2.2 zeroTrig _ (by
      have hcalls : parseArcCalls zeroTrig "L 1" = [] := by
        norm_num +decide [parseArcCalls, lexCommands, lexAux, isCmdChar, traceStep,
          parseStep, stepCmd, arcCallsCmd, parseArgs, trimChars, splitRuns, skipRun,
          isSep, parseNumber, digitsVal, pairsOf, absPairsFold, argGet, mkRounded,
          scaleRound, jsRoundNum, jmul, jsRound, initParse, CLIPPER_SCALE]
      rw [hcalls]
      intro c hc
      simp at hc)⟩⟩

end Mazemas

namespace Mazemas

/-! ## Physical configuration and the polar ring builder
(source: `mazeGenerator.ts` lines 13–65; `src/types.ts` `MazeConfig`) -/

/-- `MazeConfig` (src/types.ts): physical dimensions are JS numbers, modelled
as exact rationals. -/
structure MazeConfig where
  diameter : ℚ
  wallWidth : ℚ
  corridorWidth : ℚ
  difficulty : ℚ
  cornerRounding : Bool
  seed : ℤ
  holeRadius : ℚ

/-- `radius = diameter / 2` (source line 13). -/
def radiusOf (cfg : MazeConfig) : ℚ := cfg.diameter / 2

/-- `stepSize = corridorWidth + wallWidth` (source line 14). -/
def stepSizeOf (cfg : MazeConfig) : ℚ := cfg.corridorWidth + cfg.wallWidth

/-- `usableRadius = radius - margin - corridorWidth/2`, `margin = wallWidth`
(source lines 17–18). -/
def usableRadiusOf (cfg : MazeConfig) : ℚ :=
  radiusOf cfg - cfg.wallWidth - cfg.corridorWidth / 2

/-- `numRings = Math.floor(usableRadius / stepSize)` (source line 19). -/
def numRingsOf (cfg : MazeConfig) : ℤ := ⌊usableRadiusOf cfg / stepSizeOf cfg⌋

/-- `numCells = Math.round(2π·(r·stepSize) / stepSize)` (source lines 40–42);
JavaScript `Math.round x = ⌊x + 1/2⌋` coincides with Mathlib `round`. -/
noncomputable def cellCountR (stepSize : ℚ) (r : ℕ) : ℤ :=
  round (2 * Real.pi * ((r : ℝ) * (stepSize : ℝ)) / (stepSize : ℝ))

/-- The per-ring cell counts for rings `1..numRings`. -/
noncomputable def countsOf (cfg : MazeConfig) : List ℕ :=
  (List.range (numRingsOf cfg).toNat).map
    (fun i => (cellCountR (stepSizeOf cfg) (i + 1)).toNat)

/-- A geometric node: id plus polar/cartesian coordinates (source lines
25–33 and 50–58). -/
structure PNode where
  rc : Cell
  theta : ℝ
  x : ℝ
  y : ℝ

/-- The center node (source lines 25–33). -/
def centerPNode : PNode := ⟨(0, 0), 0, 0, 0⟩

/-- One ring of nodes (source lines 39–63): radius `r·stepSize`, cells at
`theta = (c/numCells)·2π`, cartesian by cosine/sine. -/
noncomputable def buildRing (stepSize : ℚ) (r : ℕ) : List PNode :=
  let currentRadius : ℝ := (r : ℝ) * (stepSize : ℝ)
  let numCells := (cellCountR stepSize r).toNat
  (List.range numCells).map (fun (c : ℕ) =>
    let theta : ℝ := ((c : ℕ) : ℝ) / ((numCells : ℕ) : ℝ) * (2 * Real.pi)
    ⟨(r, c), theta, currentRadius * Real.cos theta, currentRadius * Real.sin theta⟩)

/-- `ringNodes` (source lines 37–65): ring 0 is the single center node. -/
noncomputable def ringNodesOf (cfg : MazeConfig) : List (List PNode) :=
  [centerPNode] :: (List.range (numRingsOf cfg).toNat).map
    (fun i => buildRing (stepSizeOf cfg) (i + 1))

/-! ## Angle normalization and the entry rotation
(source lines 259–278) -/

/-- Closed form of `while (theta > PI) theta -= 2*PI` (source lines 242, 276):
subtract the least number of full turns that brings the value at or below π. -/
noncomputable def wrapDown (v : ℝ) : ℝ :=
  if v > Real.pi then v - 2 * Real.pi * ⌈(v - Real.pi) / (2 * Real.pi)⌉ else v

/-- Closed form of `while (theta < -PI) theta += 2*PI` (source lines 243, 277). -/
noncomputable def wrapUp (v : ℝ) : ℝ :=
  if v < -Real.pi then v + 2 * Real.pi * ⌈(-Real.pi - v) / (2 * Real.pi)⌉ else v

/-- The two normalization loops in sequence (source lines 276–277). -/
noncomputable def normalizeTheta (v : ℝ) : ℝ := wrapUp (wrapDown v)

theorem wrapDown_le (v : ℝ) : wrapDown v ≤ Real.pi := by
  unfold wrapDown
  by_cases h : v > Real.pi
  · rw [if_pos h]
    have h2pi : (0 : ℝ) < 2 * Real.pi := by positivity
    have hc := mul_le_mul_of_nonneg_left
      (Int.le_ceil ((v - Real.pi) / (2 * Real.pi))) (le_of_lt h2pi)
    have hid : 2 * Real.pi * ((v - Real.pi) / (2 * Real.pi)) = v - Real.pi := by
      field_simp
    rw [hid] at hc
    linarith
  · rw [if_neg h]
    linarith [not_lt.mp h]

theorem wrapDown_sub (v : ℝ) : ∃ k : ℤ, wrapDown v = v - 2 * Real.pi * k := by
  unfold wrapDown
  by_cases h : v > Real.pi
  · rw [if_pos h]
    exact ⟨⌈(v - Real.pi) / (2 * Real.pi)⌉, rfl⟩
  · rw [if_neg h]
    exact ⟨0, by simp⟩

theorem wrapUp_ge (v : ℝ) : -Real.pi ≤ wrapUp v := by
  unfold wrapUp
  by_cases h : v < -Real.pi
  · rw [if_pos h]
    have h2pi : (0 : ℝ) < 2 * Real.pi := by positivity
    have hc := mul_le_mul_of_nonneg_left
      (Int.le_ceil ((-Real.pi - v) / (2 * Real.pi))) (le_of_lt h2pi)
    have hid : 2 * Real.pi * ((-Real.pi - v) / (2 * Real.pi)) = -Real.pi - v := by
      field_simp
    rw [hid] at hc
    linarith
  · rw [if_neg h]
    linarith [not_lt.mp h]

theorem wrapUp_le {v : ℝ} (h : v ≤ Real.pi) : wrapUp v ≤ Real.pi := by
  unfold wrapUp
  by_cases hv : v < -Real.pi
  · rw [if_pos hv]
    have h2pi : (0 : ℝ) < 2 * Real.pi := by positivity
    have hc := mul_lt_mul_of_pos_left
      (Int.ceil_lt_add_one ((-Real.pi - v) / (2 * Real.pi))) h2pi
    have hid : 2 * Real.pi * ((-Real.pi - v) / (2 * Real.pi)) = -Real.pi - v := by
      field_simp
    rw [mul_add, hid, mul_one] at hc
    linarith
  · rw [if_neg hv]
    exact h

theorem wrapUp_sub (v : ℝ) : ∃ k : ℤ, wrapUp v = v + 2 * Real.pi * k := by
  unfold wrapUp
  by_cases h : v < -Real.pi
  · rw [if_pos h]
    exact ⟨⌈(-Real.pi - v) / (2 * Real.pi)⌉, rfl⟩
  · rw [if_neg h]
    exact ⟨0, by simp⟩

/-- The normalized angle lies in [−π, π] and differs from the input by a
whole number of turns. -/
theorem normalizeTheta_bounds (v : ℝ) :
    -Real.pi ≤ normalizeTheta v ∧ normalizeTheta v ≤ Real.pi
      ∧ ∃ k : ℤ, normalizeTheta v = v - 2 * Real.pi * k := by
  refine ⟨wrapUp_ge _, wrapUp_le (wrapDown_le v), ?_⟩
  obtain ⟨k1, h1⟩ := wrapDown_sub v
  obtain ⟨k2, h2⟩ := wrapUp_sub (wrapDown v)
  refine ⟨k1 - k2, ?_⟩
  unfold normalizeTheta
  rw [h2, h1]
  push_cast
  ring

/-- A value already in [−π, π] is left unchanged. -/
theorem normalizeTheta_id {v : ℝ} (h1 : -Real.pi ≤ v) (h2 : v ≤ Real.pi) :
    normalizeTheta v = v := by
  unfold normalizeTheta wrapDown wrapUp
  rw [if_neg (not_lt.mpr h2), if_neg (not_lt.mpr h1)]

/-- Rotation of a single node (source lines 265–278): the center stays; any
other node's cartesian coordinates are rotated by `rotationAngle` and its
angle is shifted and renormalized. -/
noncomputable def rotateOne (rotationAngle : ℝ) (n : PNode) : PNode :=
  if n.rc.1 = 0 then n
  else
    { n with
      x := n.x * Real.cos rotationAngle - n.y * Real.sin rotationAngle,
      y := n.x * Real.sin rotationAngle + n.y * Real.cos rotationAngle,
      theta := normalizeTheta (n.theta + rotationAngle) }

/-- The whole rotation stage (source lines 259–278):
`rotationAngle = -π/2 - startNode.theta`. -/
noncomputable def rotateNodes (startTheta : ℝ) (nodes : List PNode) : List PNode :=
  nodes.map (rotateOne (-Real.pi / 2 - startTheta))

end Mazemas

namespace Mazemas

theorem cellCountR_cancel {s : ℚ} (hs : 0 < s) (r : ℕ) :
    cellCountR s r = round (2 * Real.pi * (r : ℝ)) := by
  unfold cellCountR
  congr 1
  have hns : ((s : ℝ)) ≠ 0 := by
    exact_mod_cast ne_of_gt hs
  field_simp
  ring

theorem round_two_pi (r : ℕ) (n : ℤ) (h1 : (n : ℝ) ≤ 2 * Real.pi * r + 1/2)
    (h2 : 2 * Real.pi * r + 1/2 < n + 1) : round (2 * Real.pi * (r : ℝ)) = n := by
  rw [round_eq]
  exact Int.floor_eq_iff.mpr ⟨by linarith, by linarith⟩

theorem round_two_pi_one : round (2 * Real.pi * (1 : ℕ)) = 6 := by
  apply round_two_pi
  · push_cast
    nlinarith [Real.pi_gt_3141592]
  · push_cast
    nlinarith [Real.pi_lt_315]

theorem round_two_pi_two : round (2 * Real.pi * (2 : ℕ)) = 13 := by
  apply round_two_pi
  · push_cast
    nlinarith [Real.pi_gt_3141592]
  · push_cast
    nlinarith [Real.pi_lt_315]

theorem round_two_pi_three : round (2 * Real.pi * (3 : ℕ)) = 19 := by
  apply round_two_pi
  · push_cast
    nlinarith [Real.pi_gt_3141592]
  · push_cast
    nlinarith [Real.pi_lt_3141593]

theorem round_two_pi_four : round (2 * Real.pi * (4 : ℕ)) = 25 := by
  apply round_two_pi
  · push_cast
    nlinarith [Real.pi_gt_3141592]
  · push_cast
    nlinarith [Real.pi_lt_3141593]

theorem round_two_pi_five : round (2 * Real.pi * (5 : ℕ)) = 31 := by
  apply round_two_pi
  · push_cast
    nlinarith [Real.pi_gt_3141592]
  · push_cast
    nlinarith [Real.pi_lt_3141593]

/-- The default configuration of the demo scenario. -/
def scenarioConfig : MazeConfig :=
  { diameter := 290, wallWidth := 11, corridorWidth := 14, difficulty := 5,
    cornerRounding := true, seed := 38763, holeRadius := 12 }

end Mazemas

namespace Mazemas

theorem cellCountR_min_one {s : ℚ} (hs : 0 < s) {r : ℕ} (hr : 1 ≤ r) :
    1 ≤ cellCountR s r := by
  unfold cellCountR
  have hns : (0 : ℝ) < (s : ℝ) := by exact_mod_cast hs
  have key : 2 * Real.pi * ((r : ℝ) * (s : ℝ)) / (s : ℝ) = 2 * Real.pi * (r : ℝ) := by
    field_simp
    ring
  rw [key, round_eq, Int.le_floor]
  have hrr : (1 : ℝ) ≤ (r : ℝ) := by exact_mod_cast hr
  push_cast
  nlinarith [Real.pi_gt_three]

theorem buildRing_radius (s : ℚ) (r : ℕ) (n : PNode) (h : n ∈ buildRing s r) :
    n.x ^ 2 + n.y ^ 2 = ((r : ℝ) * (s : ℝ)) ^ 2 := by
  unfold buildRing at h
  simp only [List.mem_map, List.mem_range] at h
  obtain ⟨c, hc, rfl⟩ := h
  simp only
  linear_combination ((r : ℝ) * (s : ℝ)) ^ 2 *
    Real.sin_sq_add_cos_sq (((c : ℕ) : ℝ) / (((cellCountR s r).toNat : ℕ) : ℝ) * (2 * Real.pi))

theorem buildRing_spacing (s : ℚ) (r c : ℕ) (n1 n2 : PNode)
    (h1 : (buildRing s r)[c]? = some n1) (h2 : (buildRing s r)[c+1]? = some n2) :
    n2.theta - n1.theta = 2 * Real.pi / (((cellCountR s r).toNat : ℕ) : ℝ) := by
  unfold buildRing at h1 h2
  simp only [List.getElem?_map] at h1 h2
  by_cases hlt : c + 1 < (cellCountR s r).toNat
  · have hlt0 : c < (cellCountR s r).toNat := by omega
    rw [List.getElem?_range hlt] at h2
    rw [List.getElem?_range hlt0] at h1
    simp only [Option.map_some', Option.some.injEq] at h1 h2
    have hN : (0 : ℝ) < (((cellCountR s r).toNat : ℕ) : ℝ) := by
      have h0 : 0 < (cellCountR s r).toNat := by omega
      exact_mod_cast h0
    rw [← h1, ← h2]
    simp only
    push_cast
    field_simp
    ring
  · rw [List.getElem?_eq_none (by simpa using Nat.le_of_not_lt hlt)] at h2
    simp at h2

theorem buildRing_length (s : ℚ) (r : ℕ) :
    (buildRing s r).length = (cellCountR s r).toNat := by
  simp [buildRing]

theorem scenario_stepSize : stepSizeOf scenarioConfig = 25 := by
  norm_num [stepSizeOf, scenarioConfig]

theorem scenario_usable : usableRadiusOf scenarioConfig = 127 := by
  norm_num [usableRadiusOf, radiusOf, scenarioConfig]

theorem scenario_numRings : numRingsOf scenarioConfig = 5 := by
  unfold numRingsOf
  rw [scenario_usable, scenario_stepSize]
  rw [Int.floor_eq_iff]
  norm_num

theorem scenario_counts : countsOf scenarioConfig = [6, 13, 19, 25, 31] := by
  have h1 : cellCountR (stepSizeOf scenarioConfig) 1 = 6 := by
    rw [scenario_stepSize, cellCountR_cancel (by norm_num)]; exact round_two_pi_one
  have h2 : cellCountR (stepSizeOf scenarioConfig) 2 = 13 := by
    rw [scenario_stepSize, cellCountR_cancel (by norm_num)]; exact round_two_pi_two
  have h3 : cellCountR (stepSizeOf scenarioConfig) 3 = 19 := by
    rw [scenario_stepSize, cellCountR_cancel (by norm_num)]; exact round_two_pi_three
  have h4 : cellCountR (stepSizeOf scenarioConfig) 4 = 25 := by
    rw [scenario_stepSize, cellCountR_cancel (by norm_num)]; exact round_two_pi_four
  have h5 : cellCountR (stepSizeOf scenarioConfig) 5 = 31 := by
    rw [scenario_stepSize, cellCountR_cancel (by norm_num)]; exact round_two_pi_five
  unfold countsOf
  rw [scenario_numRings]
  rw [show ((5 : ℤ).toNat) = 5 from rfl, show List.range 5 = [0, 1, 2, 3, 4] from rfl]
  norm_num [h1, h2, h3, h4, h5]
  decide

/-- C6: with a positive step size, the builder's ring `r` carries
`round(2π·(r·stepSize)/stepSize) = round(2π·r)` cells — at least one for every
`r ≥ 1` — every cell of ring `r` lies at radius `r·stepSize`, consecutive cells
are separated by the equal angle `2π / numCells`, ring 0 is exactly the single
root node at the origin, and rings `1..numRings` are the built rings; in the
demo scenario `{diameter 290, wallWidth 11, corridorWidth 14, …}` the derived
values are `stepSize = 25`, `usableRadius = 127`, `numRings = 5` and the cell
counts are `[6, 13, 19, 25, 31]`, i.e. `round(2π·r)` for `r = 1..5`. -/
theorem claim_C6_ring_layout (cfg : MazeConfig) (hs : 0 < stepSizeOf cfg) :
    (∀ r : ℕ, cellCountR (stepSizeOf cfg) r = round (2 * Real.pi * (r : ℝ)))
    ∧ (∀ r : ℕ, 1 ≤ r → 1 ≤ cellCountR (stepSizeOf cfg) r)
    ∧ (∀ r : ℕ, (buildRing (stepSizeOf cfg) r).length = (cellCountR (stepSizeOf cfg) r).toNat)
    ∧ (∀ r : ℕ, ∀ n ∈ buildRing (stepSizeOf cfg) r,
        n.x ^ 2 + n.y ^ 2 = ((r : ℝ) * ((stepSizeOf cfg : ℚ) : ℝ)) ^ 2)
    ∧ (∀ (r c : ℕ) (n1 n2 : PNode),
        (buildRing (stepSizeOf cfg) r)[c]? = some n1 →
        (buildRing (stepSizeOf cfg) r)[c+1]? = some n2 →
        n2.theta - n1.theta
          = 2 * Real.pi / (((cellCountR (stepSizeOf cfg) r).toNat : ℕ) : ℝ))
    ∧ ((ringNodesOf cfg)[0]? = some [centerPNode]
        ∧ centerPNode.x = 0 ∧ centerPNode.y = 0)
    ∧ (ringNodesOf cfg).length = (numRingsOf cfg).toNat + 1
    ∧ (∀ i : ℕ, i < (numRingsOf cfg).toNat →
        (ringNodesOf cfg)[i+1]? = some (buildRing (stepSizeOf cfg) (i+1)))
    ∧ (stepSizeOf scenarioConfig = 25
        ∧ usableRadiusOf scenarioConfig = 127
        ∧ numRingsOf scenarioConfig = 5
        ∧ countsOf scenarioConfig = [6, 13, 19, 25, 31]) := by
  refine ⟨fun r => cellCountR_cancel hs r,
    fun r hr => cellCountR_min_one hs hr,
    fun r => buildRing_length _ r,
    fun r n h => buildRing_radius _ r n h,
    fun r c n1 n2 h1 h2 => buildRing_spacing _ r c n1 n2 h1 h2,
    ⟨by simp [ringNodesOf], rfl, rfl⟩,
    by simp [ringNodesOf],
    fun i hi => ?_,
    scenario_stepSize, scenario_usable, scenario_numRings, scenario_counts⟩
  unfold ringNodesOf
  rw [List.getElem?_cons_succ]
  simp only [List.getElem?_map]
  rw [List.getElem?_range hi]
  rfl

theorem claim_C6_witness :
    0 < stepSizeOf scenarioConfig
      ∧ countsOf scenarioConfig = [6, 13, 19, 25, 31] := by
  have hs : 0 < stepSizeOf scenarioConfig := by norm_num [stepSizeOf, scenarioConfig]
  exact ⟨hs, (claim_C6_ring_layout scenarioConfig hs).2.2.2.2.2.2.2.2.2.2.2⟩

end Mazemas

namespace Mazemas

theorem rotateOne_center (a : ℝ) (n : PNode) (h : n.rc.1 = 0) :
    rotateOne a n = n := by
  unfold rotateOne
  rw [if_pos h]

theorem rotateOne_radius (a : ℝ) (n : PNode) (h : n.rc.1 ≠ 0) :
    (rotateOne a n).x ^ 2 + (rotateOne a n).y ^ 2 = n.x ^ 2 + n.y ^ 2 := by
  unfold rotateOne
  rw [if_neg h]
  simp only
  linear_combination (n.x ^ 2 + n.y ^ 2) * Real.sin_sq_add_cos_sq a

theorem rotateOne_theta (a : ℝ) (n : PNode) (h : n.rc.1 ≠ 0) :
    (rotateOne a n).theta = normalizeTheta (n.theta + a) := by
  unfold rotateOne
  rw [if_neg h]

theorem rotateOne_rc (a : ℝ) (n : PNode) : (rotateOne a n).rc = n.rc := by
  unfold rotateOne
  by_cases h : n.rc.1 = 0
  · rw [if_pos h]
  · rw [if_neg h]

/-- C7 counterexample: the while-loop renormalization maps an angle of exactly
`−π` to itself, so a rotated node can end with `theta = −π`, which is outside
the half-open interval `(−π, π]` the spec names. A node with `theta = π`
(cell 3 of the 6-cell ring 1 sits at exactly `π`) rotated for an entry node
with `startTheta = 3π/2` (cell 66 of the 88-cell ring 14) lands at `−π`. -/
theorem claim_C7_counterexample :
    ((rotateNodes (3 * Real.pi / 2) [⟨(1, 3), Real.pi, -25, 0⟩]).map
        (fun n => n.theta) = [-Real.pi])
      ∧ -Real.pi ∉ Set.Ioc (-Real.pi) Real.pi := by
  constructor
  · unfold rotateNodes
    simp only [List.map_cons, List.map_nil, List.cons.injEq, and_true]
    rw [rotateOne_theta _ _ (by norm_num)]
    simp only
    have hv : Real.pi + (-Real.pi / 2 - 3 * Real.pi / 2) = -Real.pi := by ring
    rw [hv, normalizeTheta_id le_rfl (by linarith [Real.pi_pos])]
  · simp [Set.mem_Ioc]

/-- C7 (amended): the rotation stage keeps every node's id (hence every
parent link), leaves the center node untouched, rotates each non-root node's
cartesian coordinates rigidly (radius preserved) while shifting its angle by
the rotation angle and renormalizing, the renormalized angle always lies in
the closed interval `[−π, π]` (not the spec's `(−π, π]`) and differs from its
input by a whole number of turns, and the entry node itself — whose `theta` is
the `startTheta` the rotation is built from — ends at exactly `−π/2`, hence
within `1e-6` of `−π/2`. -/
theorem claim_C7_rotation_normalization :
    (∀ (a : ℝ) (ns : List PNode),
        (rotateNodes a ns).map (fun n => n.rc) = ns.map (fun n => n.rc))
    ∧ (∀ (a : ℝ) (n : PNode), n.rc.1 = 0 → rotateOne (-Real.pi / 2 - a) n = n)
    ∧ (∀ (rot : ℝ) (n : PNode), n.rc.1 ≠ 0 →
        (rotateOne rot n).x ^ 2 + (rotateOne rot n).y ^ 2 = n.x ^ 2 + n.y ^ 2
          ∧ (rotateOne rot n).theta = normalizeTheta (n.theta + rot))
    ∧ (∀ v : ℝ, -Real.pi ≤ normalizeTheta v ∧ normalizeTheta v ≤ Real.pi
          ∧ ∃ k : ℤ, normalizeTheta v = v - 2 * Real.pi * k)
    ∧ (∀ (st : ℝ) (n : PNode), n.theta = st → n.rc.1 ≠ 0 →
        (rotateOne (-Real.pi / 2 - st) n).theta = -Real.pi / 2
          ∧ |(rotateOne (-Real.pi / 2 - st) n).theta - (-Real.pi / 2)|
              < 1 / 1000000) := by
  refine ⟨fun a ns => ?_, fun a n h => rotateOne_center _ n h,
    fun rot n h => ⟨rotateOne_radius rot n h, rotateOne_theta rot n h⟩,
    fun v => normalizeTheta_bounds v, fun st n hth h => ?_⟩
  · unfold rotateNodes
    rw [List.map_map]
    congr 1
    funext n
    exact rotateOne_rc _ n
  · have hkey : (rotateOne (-Real.pi / 2 - st) n).theta = -Real.pi / 2 := by
      rw [rotateOne_theta _ n h, hth]
      have hv : st + (-Real.pi / 2 - st) = -Real.pi / 2 := by ring
      rw [hv]
      exact normalizeTheta_id (by linarith [Real.pi_pos]) (by linarith [Real.pi_pos])
    refine ⟨hkey, ?_⟩
    rw [hkey]
    simp

theorem claim_C7_witness :
    ((centerPNode.rc.1 = 0) ∧ rotateOne (-Real.pi / 2 - 0) centerPNode = centerPNode)
      ∧ (((⟨(1, 0), 0, 25, 0⟩ : PNode).rc.1 ≠ 0)
          ∧ (rotateOne (-Real.pi / 2 - 0) (⟨(1, 0), 0, 25, 0⟩ : PNode)).theta
              = -Real.pi / 2
          ∧ |(rotateOne (-Real.pi / 2 - 0) (⟨(1, 0), 0, 25, 0⟩ : PNode)).theta
              - (-Real.pi / 2)| < 1 / 1000000) := by
  refine ⟨⟨rfl, claim_C7_rotation_normalization.2.1 0 centerPNode rfl⟩,
    by norm_num,
    (claim_C7_rotation_normalization.2.2.2.2 0 (⟨(1, 0), 0, 25, 0⟩ : PNode)
      rfl (by norm_num)).1,
    (claim_C7_rotation_normalization.2.2.2.2 0 (⟨(1, 0), 0, 25, 0⟩ : PNode)
      rfl (by norm_num)).2⟩

end Mazemas

namespace Mazemas

/-! ## The assembled generator and its (absent) configuration validation
(source `mazeGenerator.ts`, whole of `generateMaze`)

The source computes `radius`, `stepSize`, `usableRadius` and `numRings`
(lines 13–19) and then goes straight into grid construction: there is no
validation of any kind and no `InvalidConfiguration` (or any other `throw`)
anywhere in the file.  `generateMaze` below returns `none` exactly where the
JavaScript dies with an uncaught `TypeError` (reading `ringNodes[numRings]`
when `numRings < 0` leaves `outerNodes` `undefined` at line 212, and a zero
step size makes `numRings` `NaN` with the same effect); in every other case
it returns `some` model. -/

/-- The result of `generateMaze` at the node-identity level: the node list,
the parent links of the spanning tree, and the chosen entry node
(`types.ts` `MazeData`; coordinates and path strings are handled by the
dedicated ring/rotation/stitching developments). -/
structure MazeData where
  nodes : List Cell
  parent : List (Cell × Cell)
  startNode : Cell
deriving Repr, DecidableEq

/-- The pre-rotation angle of a node (source line 45): `(c/numCells)·2π`,
`0` for the center. -/
noncomputable def thetaOf (counts : List ℕ) (n : Cell) : ℝ :=
  if n.1 = 0 then 0
  else ((n.2 : ℕ) : ℝ) / ((counts.getD (n.1 - 1) 0 : ℕ) : ℝ) * (2 * Real.pi)

/-- The parent-chain walk of the entry scoring loop (source lines 216–247):
accumulates chain length, radial inflection count and total absolute
normalized rotation.  The walk follows `parent` links and stops at the root
(`fuel` bounds the chain; parent ranks strictly decrease, so any fuel at
least the number of nodes is enough). -/
noncomputable def scoreWalk (counts : List ℕ) (parent : List (Cell × Cell)) :
    ℕ → Cell → ℤ → ℕ → ℕ → ℝ → ℕ × ℕ × ℝ
  | 0, _, _, len, infl, rot => (len, infl, rot)
  | fuel + 1, curr, prevDir, len, infl, rot =>
    match parent.lookup curr with
    | none => (len, infl, rot)
    | some next =>
      let dir : ℤ := if next.1 < curr.1 then 1 else if curr.1 < next.1 then -1 else 0
      let infl2 := if dir ≠ 0 ∧ prevDir ≠ 0 ∧ dir ≠ prevDir then infl + 1 else infl
      let prevDir2 := if dir ≠ 0 then dir else prevDir
      let dTheta := normalizeTheta (thetaOf counts next - thetaOf counts curr)
      scoreWalk counts parent fuel next prevDir2 (len + 1) infl2 (rot + |dTheta|)

/-- The difficulty score of a candidate entry node (source line 252):
`length·1 + inflections·200 + totalRotation·10`. -/
noncomputable def scoreOf (counts : List ℕ) (parent : List (Cell × Cell))
    (fuel : ℕ) (n : Cell) : ℝ :=
  let w := scoreWalk counts parent fuel n 0 0 0 0
  (w.1 : ℝ) * 1 + (w.2.1 : ℝ) * 200 + w.2.2 * 10

/-- The assembled generator (source lines 3–417) at the node-identity level:
derived values, grid, growing-tree generation, and the entry-point selection
`score > maxScore` scan over the outermost ring (first maximum wins, since
the comparison is strict and `maxScore` starts at `-Infinity`).  `none`
models the uncaught JavaScript `TypeError`s described above — the source
never throws a typed error and never validates the config. -/
noncomputable def generateMaze (sinStream : ℕ → ℚ) (cfg : MazeConfig) :
    Option MazeData :=
  if stepSizeOf cfg = 0 then none
  else if numRingsOf cfg < 0 then none
  else
    let counts := countsOf cfg
    let gs := runGeneration counts cfg.difficulty sinStream
    let nr := (numRingsOf cfg).toNat
    let outerNodes : List Cell :=
      if nr = 0 then [(0, 0)]
      else (List.range (counts.getD (nr - 1) 0)).map (fun c => (nr, c))
    match outerNodes with
    | [] => none
    | n0 :: rest =>
      let score := scoreOf counts gs.parent gs.visited.length
      let startNode := rest.foldl
        (fun best n => if score best < score n then n else best) n0
      some { nodes := allNodes counts, parent := gs.parent, startNode := startNode }

theorem getNeighbors_nil (c : Cell) : getNeighbors [] c = [] := by
  unfold getNeighbors
  by_cases h : c.1 = 0 <;> simp [h]

theorem runGeneration_nil (d : ℚ) (str : ℕ → ℚ) :
    (runGeneration [] d str).visited = [(0, 0)]
      ∧ (runGeneration [] d str).parent = []
      ∧ (runGeneration [] d str).edges = [] := by
  unfold runGeneration
  rw [genLoop, dif_neg (by simp [initState] : ¬(initState.active = []))]
  rcases genStep_cases [] (0.02 + d * 0.08) (500 - d * 60) d str initState
      (by simp [initState]) with ⟨idx, hidx, hnb, heq⟩ | ⟨idx, chosen, k', hidx, hgn, hnv, heq⟩
  · rw [heq]
    have hidx0 : idx = 0 := by
      simp only [initState, List.length_singleton] at hidx
      omega
    subst hidx0
    rw [genLoop]
    simp [initState]
  · rw [getNeighbors_nil] at hgn
    exact absurd hgn (List.not_mem_nil _)

theorem countsOf_of_zero_rings {cfg : MazeConfig} (hnr : numRingsOf cfg = 0) :
    countsOf cfg = [] := by
  unfold countsOf
  rw [hnr]
  rfl

theorem generateMaze_none_of_neg_rings (cfg : MazeConfig) (str : ℕ → ℚ)
    (hnr : numRingsOf cfg < 0) : generateMaze str cfg = none := by
  unfold generateMaze
  by_cases hs : stepSizeOf cfg = 0
  · rw [if_pos hs]
  · rw [if_neg hs, if_pos hnr]

theorem generateMaze_zero_rings (cfg : MazeConfig) (str : ℕ → ℚ)
    (hs : stepSizeOf cfg ≠ 0) (hnr : numRingsOf cfg = 0) :
    generateMaze str cfg
      = some { nodes := [(0, 0)], parent := [], startNode := (0, 0) } := by
  unfold generateMaze
  rw [if_neg hs, if_neg (by rw [hnr]; norm_num)]
  simp only [countsOf_of_zero_rings hnr, hnr, Int.toNat_zero]
  rw [(runGeneration_nil cfg.difficulty str).2.1]
  rfl

/-- The demo-sized config whose derived values give `numRings = 0`:
`radius = 20`, `usableRadius = 2`, `stepSize = 25`, `⌊2/25⌋ = 0`. -/
def zeroRingConfig : MazeConfig :=
  { diameter := 40, wallWidth := 11, corridorWidth := 14, difficulty := 5,
    cornerRounding := true, seed := 38763, holeRadius := 12 }

/-- A config whose derived values give `numRings = -1`:
`usableRadius = -13`, `stepSize = 25`, `⌊-13/25⌋ = -1`. -/
def negRingConfig : MazeConfig :=
  { diameter := 10, wallWidth := 11, corridorWidth := 14, difficulty := 5,
    cornerRounding := true, seed := 1, holeRadius := 12 }

theorem numRings_zeroRingConfig : numRingsOf zeroRingConfig = 0 := by
  unfold numRingsOf
  rw [Int.floor_eq_iff] <;>
    norm_num [usableRadiusOf, radiusOf, stepSizeOf, zeroRingConfig]

theorem numRings_negRingConfig : numRingsOf negRingConfig = -1 := by
  unfold numRingsOf
  rw [Int.floor_eq_iff] <;>
    norm_num [usableRadiusOf, radiusOf, stepSizeOf, negRingConfig]

/-- C2 counterexample: a config with positive `radius`, `usableRadius` and
`stepSize` but `numRings = 0 < 1` does NOT fail: the source has no validation
and no `InvalidConfiguration` (no `throw` exists in `mazeGenerator.ts`), and
`generateMaze` returns a degenerate single-node model — a partial model IS
returned. -/
theorem claim_C2_counterexample :
    radiusOf zeroRingConfig = 20
      ∧ usableRadiusOf zeroRingConfig = 2
      ∧ stepSizeOf zeroRingConfig = 25
      ∧ numRingsOf zeroRingConfig = 0
      ∧ generateMaze (fun _ => 0) zeroRingConfig
          = some { nodes := [(0, 0)], parent := [], startNode := (0, 0) } := by
  refine ⟨by norm_num [radiusOf, zeroRingConfig],
    by norm_num [usableRadiusOf, radiusOf, zeroRingConfig],
    by norm_num [stepSizeOf, zeroRingConfig],
    numRings_zeroRingConfig, ?_⟩
  exact generateMaze_zero_rings _ _ (by norm_num [stepSizeOf, zeroRingConfig])
    numRings_zeroRingConfig

/-- C2 (amended): the generator performs no configuration validation at all.
With `numRings < 0` it crashes with an uncaught `TypeError` (no inspectable
`InvalidConfiguration`, modelled as `none`); with `numRings = 0` (and a
nonzero step size) it silently returns the degenerate single-node model with
no error whatsoever. -/
theorem claim_C2_no_invalid_configuration (cfg : MazeConfig) (str : ℕ → ℚ) :
    (numRingsOf cfg < 0 → generateMaze str cfg = none)
      ∧ (numRingsOf cfg = 0 → stepSizeOf cfg ≠ 0 →
          generateMaze str cfg
            = some { nodes := [(0, 0)], parent := [], startNode := (0, 0) }) :=
  ⟨fun hnr => generateMaze_none_of_neg_rings cfg str hnr,
    fun hnr hs => generateMaze_zero_rings cfg str hs hnr⟩

theorem claim_C2_witness :
    (numRingsOf negRingConfig < 0
      ∧ generateMaze (fun _ => 0) negRingConfig = none)
      ∧ (numRingsOf zeroRingConfig = 0
          ∧ stepSizeOf zeroRingConfig ≠ 0
          ∧ generateMaze (fun _ => 0) zeroRingConfig
              = some { nodes := [(0, 0)], parent := [], startNode := (0, 0) }) := by
  have hneg : numRingsOf negRingConfig < 0 := by rw [numRings_negRingConfig]; norm_num
  have hzero : numRingsOf zeroRingConfig = 0 := numRings_zeroRingConfig
  have hs : stepSizeOf zeroRingConfig ≠ 0 := by norm_num [stepSizeOf, zeroRingConfig]
  exact ⟨⟨hneg, (claim_C2_no_invalid_configuration negRingConfig (fun _ => 0)).1 hneg⟩,
    hzero, hs, (claim_C2_no_invalid_configuration zeroRingConfig (fun _ => 0)).2 hzero hs⟩

end Mazemas

namespace Mazemas

inductive PathCmd where
  | move (target : Cell)
  | line (target : Cell)
  | arc (radius : ℝ) (sweep : Bool) (target : Cell)

def edgeKey (a b : Cell) : Cell × Cell :=
  if a.1 < b.1 ∨ (a.1 = b.1 ∧ a.2 ≤ b.2) then (a, b) else (b, a)

theorem edgeKey_comm (a b : Cell) : edgeKey a b = edgeKey b a := by
  unfold edgeKey
  rcases a with ⟨a1, a2⟩
  rcases b with ⟨b1, b2⟩
  split_ifs with h1 h2 h2 <;> simp_all <;> omega

theorem edgeKey_inj {a b c d : Cell} (h : edgeKey a b = edgeKey c d) :
    (a = c ∧ b = d) ∨ (a = d ∧ b = c) := by
  unfold edgeKey at h
  split_ifs at h <;>
    (rcases Prod.mk.injEq .. ▸ h with ⟨h1, h2⟩ <;> simp_all)

def adjOf (edges : List (Cell × Cell)) (v : Cell) : List Cell :=
  edges.filterMap (fun e =>
    if e.1 = v then some e.2 else if e.2 = v then some e.1 else none)

theorem mem_adjOf {edges : List (Cell × Cell)} {v x : Cell} :
    x ∈ adjOf edges v ↔ (v, x) ∈ edges ∨ (x, v) ∈ edges := by
  unfold adjOf
  rw [List.mem_filterMap]
  constructor
  · rintro ⟨e, he, hfe⟩
    by_cases h1 : e.1 = v
    · rw [if_pos h1] at hfe
      left
      have : e = (v, x) := by
        rcases e with ⟨p, q⟩
        simp_all
      exact this ▸ he
    · rw [if_neg h1] at hfe
      by_cases h2 : e.2 = v
      · rw [if_pos h2] at hfe
        right
        have : e = (x, v) := by
          rcases e with ⟨p, q⟩
          simp_all
        exact this ▸ he
      · rw [if_neg h2] at hfe
        exact absurd hfe (by simp)
  · rintro (he | he)
    · exact ⟨(v, x), he, by simp⟩
    · refine ⟨(x, v), he, ?_⟩
      by_cases hxv : x = v
      · subst hxv
        simp
      · simp [hxv]

theorem adjOf_symm {edges : List (Cell × Cell)} {v x : Cell} :
    x ∈ adjOf edges v ↔ v ∈ adjOf edges x := by
  rw [mem_adjOf, mem_adjOf]
  tauto

end Mazemas
namespace Mazemas

def nodeIdsAux (seen : List Cell) : List Cell → List Cell
  | [] => []
  | a :: l => if a ∈ seen then nodeIdsAux seen l else a :: nodeIdsAux (a :: seen) l

def nodeIdsOf (edges : List (Cell × Cell)) : List Cell :=
  nodeIdsAux [] (edges.flatMap (fun e => [e.1, e.2]))

theorem mem_nodeIdsAux {l : List Cell} :
    ∀ {seen x}, x ∈ nodeIdsAux seen l ↔ x ∈ l ∧ x ∉ seen := by
  induction l with
  | nil => intro seen x; simp [nodeIdsAux]
  | cons a l ih =>
    intro seen x
    unfold nodeIdsAux
    by_cases ha : a ∈ seen
    · rw [if_pos ha, ih]
      constructor
      · rintro ⟨h1, h2⟩
        exact ⟨List.mem_cons_of_mem _ h1, h2⟩
      · rintro ⟨h1, h2⟩
        rcases List.mem_cons.mp h1 with rfl | h1
        · exact absurd ha h2
        · exact ⟨h1, h2⟩
    · rw [if_neg ha]
      constructor
      · intro h
        rcases List.mem_cons.mp h with rfl | h
        · exact ⟨List.mem_cons_self _ _, ha⟩
        · rw [ih] at h
          refine ⟨List.mem_cons_of_mem _ h.1, fun hc => h.2 (List.mem_cons_of_mem _ hc)⟩
      · rintro ⟨h1, h2⟩
        rcases List.mem_cons.mp h1 with rfl | h1
        · exact List.mem_cons_self _ _
        · by_cases hxa : x = a
          · subst hxa
            exact List.mem_cons_self _ _
          · refine List.mem_cons_of_mem _ (ih.mpr ⟨h1, ?_⟩)
            intro hc
            rcases List.mem_cons.mp hc with h | h
            · exact hxa h
            · exact h2 h

theorem mem_nodeIdsOf {edges : List (Cell × Cell)} {x : Cell} :
    x ∈ nodeIdsOf edges ↔ ∃ e ∈ edges, x = e.1 ∨ x = e.2 := by
  unfold nodeIdsOf
  rw [mem_nodeIdsAux]
  simp only [List.not_mem_nil, and_true, List.mem_flatMap, List.mem_cons,
    List.not_mem_nil, or_false, not_false_iff]

def junctionsOf (edges : List (Cell × Cell)) : List Cell :=
  (nodeIdsOf edges).filter (fun v => decide ((adjOf edges v).length ≠ 2))

theorem filter_length_mono {α : Type} (l : List α) (p q : α → Bool)
    (himp : ∀ x ∈ l, p x = true → q x = true) :
    (l.filter p).length ≤ (l.filter q).length := by
  rw [← List.countP_eq_length_filter, ← List.countP_eq_length_filter]
  exact List.countP_mono_left himp

theorem filter_length_lt {α : Type} (l : List α) (p q : α → Bool)
    (himp : ∀ x ∈ l, p x = true → q x = true)
    (a : α) (ha : a ∈ l) (hqa : q a = true) (hpa : p a = false) :
    (l.filter p).length < (l.filter q).length := by
  rw [← List.countP_eq_length_filter, ← List.countP_eq_length_filter]
  induction l with
  | nil => simp at ha
  | cons b l ih =>
    have himp2 : ∀ x ∈ l, p x = true → q x = true :=
      fun x hx => himp x (List.mem_cons_of_mem _ hx)
    have hmono := List.countP_mono_left himp2
    rw [List.countP_cons, List.countP_cons]
    rcases List.mem_cons.mp ha with rfl | ha2
    · rw [hpa, hqa]
      simp only [Bool.false_eq_true, if_false, if_true]
      omega
    · have := ih himp2 ha2
      by_cases hp : p b = true
      · rw [hp, himp b (List.mem_cons_self _ _) hp]
        simp only [if_true]
        omega
      · rw [Bool.not_eq_true] at hp
        rw [hp]
        simp only [Bool.false_eq_true, if_false]
        by_cases hq : q b = true
        · rw [hq]
          simp only [if_true]
          omega
        · rw [Bool.not_eq_true] at hq
          rw [hq]
          simp only [Bool.false_eq_true, if_false]
          omega

def freshCount (edges : List (Cell × Cell)) (drawn : List (Cell × Cell)) : ℕ :=
  ((edges.map (fun e => edgeKey e.1 e.2)).filter (fun k => decide (k ∉ drawn))).length

theorem freshCount_cons_lt {edges drawn : List (Cell × Cell)} {k : Cell × Cell}
    (hmem : k ∈ edges.map (fun e => edgeKey e.1 e.2)) (hnew : k ∉ drawn) :
    freshCount edges (k :: drawn) < freshCount edges drawn := by
  unfold freshCount
  refine filter_length_lt _ _ _ ?_ k hmem (by simpa using hnew) (by simp)
  intro x hx h
  simp only [decide_eq_true_eq] at h ⊢
  intro hc
  exact h (List.mem_cons_of_mem _ hc)

def walkSeg (edges : List (Cell × Cell)) (curr next : Cell)
    (drawn : List (Cell × Cell)) :
    List (Cell × Cell) × List (Cell × Cell) × Bool :=
  if h : edgeKey curr next ∈ drawn
      ∨ edgeKey curr next ∉ edges.map (fun e => edgeKey e.1 e.2) then
    ([], drawn, false)
  else
    if (adjOf edges next).length ≠ 2 then
      ([(curr, next)], edgeKey curr next :: drawn, true)
    else
      match (adjOf edges next).find? (fun x => decide (x ≠ curr)) with
      | none => ([(curr, next)], edgeKey curr next :: drawn, true)
      | some other =>
        ((curr, next) :: (walkSeg edges next other (edgeKey curr next :: drawn)).1,
         (walkSeg edges next other (edgeKey curr next :: drawn)).2.1,
         (walkSeg edges next other (edgeKey curr next :: drawn)).2.2)
termination_by freshCount edges drawn
decreasing_by
  all_goals (push_neg at h; exact freshCount_cons_lt h.2 h.1)

/-- One neighbor of one junction (source lines 342–383): skip if the edge is
already drawn, otherwise walk and record the segment. -/
def walkStep (edges : List (Cell × Cell)) (j : Cell)
    (acc : List (Cell × List (Cell × Cell)) × List (Cell × Cell) × Bool)
    (n : Cell) : List (Cell × List (Cell × Cell)) × List (Cell × Cell) × Bool :=
  if edgeKey j n ∈ acc.2.1 then acc
  else
    let res := walkSeg edges j n acc.2.1
    (acc.1 ++ [(j, res.1)], res.2.1, acc.2.2 && res.2.2)

/-- The whole stitching traversal (source lines 340–385): for each junction,
for each incident edge, a traced segment. -/
def traceSegs (edges : List (Cell × Cell)) :
    List (Cell × List (Cell × Cell)) × List (Cell × Cell) × Bool :=
  (junctionsOf edges).foldl (fun acc j =>
    (adjOf edges j).foldl (walkStep edges j) acc)
    ([], [], true)



end Mazemas
namespace Mazemas

/-- The exit of a degree-2 node `y` entered from `x` is `z`. -/
def OtherNbr (edges : List (Cell × Cell)) (x y z : Cell) : Prop :=
  (adjOf edges y = [x, z] ∨ adjOf edges y = [z, x]) ∧ x ≠ z

theorem nodup_filterMap_of_memInj {α β : Type} {l : List α} {f : α → Option β}
    (hinj : ∀ a ∈ l, ∀ a' ∈ l, ∀ b, f a = some b → f a' = some b → a = a')
    (hl : l.Nodup) : (l.filterMap f).Nodup := by
  induction l with
  | nil => simp
  | cons a l ih =>
    have hl2 := (List.nodup_cons.mp hl).2
    have ha2 := (List.nodup_cons.mp hl).1
    have hinj2 : ∀ x ∈ l, ∀ x' ∈ l, ∀ b, f x = some b → f x' = some b → x = x' :=
      fun x hx x' hx' b h1 h2 =>
        hinj x (List.mem_cons_of_mem _ hx) x' (List.mem_cons_of_mem _ hx') b h1 h2
    rw [List.filterMap_cons]
    cases hfa : f a with
    | none => exact ih hinj2 hl2
    | some b =>
      rw [List.nodup_cons]
      refine ⟨?_, ih hinj2 hl2⟩
      intro hb
      rcases List.mem_filterMap.mp hb with ⟨a', ha', hfa'⟩
      have := hinj a (List.mem_cons_self _ _) a' (List.mem_cons_of_mem _ ha') b hfa hfa'
      exact ha2 (this ▸ ha')

theorem adjOf_nodup {edges : List (Cell × Cell)} {rk : Cell → ℕ}
    (hrk : ∀ e ∈ edges, rk e.1 < rk e.2)
    (hnodup : (edges.map (fun e => e.2)).Nodup) (y : Cell) :
    (adjOf edges y).Nodup := by
  unfold adjOf
  refine nodup_filterMap_of_memInj ?_ (List.Nodup.of_map _ hnodup)
  intro a ha a' ha' b h1 h2
  have shape : ∀ e ∈ edges, ∀ z : Cell,
      (if e.1 = y then some e.2 else if e.2 = y then some e.1 else none) = some z →
      e = (y, z) ∨ e = (z, y) := by
    intro e he z hz
    by_cases he1 : e.1 = y
    · rw [if_pos he1] at hz
      left
      rcases e with ⟨p, q⟩
      simp_all
    · rw [if_neg he1] at hz
      by_cases he2 : e.2 = y
      · rw [if_pos he2] at hz
        right
        rcases e with ⟨p, q⟩
        simp_all
      · rw [if_neg he2] at hz
        exact absurd hz (by simp)
  rcases shape a ha b h1 with rfl | rfl <;> rcases shape a' ha' b h2 with h' | h'
  · rw [h']
  · have k1 := hrk _ ha
    have k2 := hrk _ ha'
    rw [h'] at k2
    simp at k1 k2
    omega
  · have k1 := hrk _ ha
    have k2 := hrk _ ha'
    rw [h'] at k2
    simp at k1 k2
    omega
  · rw [h']

theorem pair_of_length_two {l : List Cell} (h : l.length = 2) (hn : l.Nodup)
    {x : Cell} (hx : x ∈ l) :
    ∃ z, z ≠ x ∧ (l = [x, z] ∨ l = [z, x]) := by
  match l, h with
  | [a, b], _ =>
    have hab : a ≠ b := by
      simp only [List.nodup_cons, List.mem_cons, List.not_mem_nil] at hn
      tauto
    rcases List.mem_cons.mp hx with rfl | hx2
    · exact ⟨b, fun hc => hab hc.symm, Or.inl rfl⟩
    · rcases List.mem_cons.mp hx2 with rfl | hx3
      · exact ⟨a, fun hc => hab hc, Or.inr rfl⟩
      · simp at hx3

theorem find?_other {edges : List (Cell × Cell)} {y curr z : Cell}
    (hshape : adjOf edges y = [curr, z] ∨ adjOf edges y = [z, curr])
    (hne : curr ≠ z) :
    (adjOf edges y).find? (fun x => decide (x ≠ curr)) = some z := by
  rcases hshape with h | h <;> rw [h]
  · rw [List.find?_cons_of_neg _ (by simp), List.find?_cons_of_pos _ (by simp [Ne.symm hne])]
  · rw [List.find?_cons_of_pos _ (by simp [Ne.symm hne])]

theorem otherNbr_exists {edges : List (Cell × Cell)} {rk : Cell → ℕ}
    (hrk : ∀ e ∈ edges, rk e.1 < rk e.2)
    (hnodup : (edges.map (fun e => e.2)).Nodup)
    {y curr : Cell} (hdeg : (adjOf edges y).length = 2) (hcur : curr ∈ adjOf edges y) :
    ∃ z, OtherNbr edges curr y z
      ∧ (adjOf edges y).find? (fun x => decide (x ≠ curr)) = some z := by
  obtain ⟨z, hz, hsh⟩ := pair_of_length_two hdeg (adjOf_nodup hrk hnodup y) hcur
  exact ⟨z, ⟨hsh, fun hc => hz hc.symm⟩, find?_other hsh (fun hc => hz hc.symm)⟩

theorem otherNbr_unique {edges : List (Cell × Cell)} {x y z z' : Cell}
    (h1 : OtherNbr edges x y z) (h2 : OtherNbr edges x y z') : z = z' := by
  rcases h1 with ⟨hs1, hne1⟩
  rcases h2 with ⟨hs2, hne2⟩
  rcases hs1 with h1 | h1 <;> rcases hs2 with h2 | h2 <;>
    (rw [h1] at h2; simp only [List.cons.injEq, and_true] at h2) <;> tauto

theorem otherNbr_entry {edges : List (Cell × Cell)} {x y z curr : Cell}
    (h : OtherNbr edges x y z) (hcur : curr ∈ adjOf edges y) (hne : curr ≠ x) :
    z = curr := by
  rcases h with ⟨hs, hxz⟩
  rcases hs with h1 | h1 <;> rw [h1] at hcur <;> simp only [List.mem_cons,
    List.not_mem_nil, or_false] at hcur <;> tauto

theorem otherNbr_deg {edges : List (Cell × Cell)} {x y z : Cell}
    (h : OtherNbr edges x y z) : (adjOf edges y).length = 2 := by
  rcases h with ⟨hs, _⟩
  rcases hs with h1 | h1 <;> rw [h1] <;> rfl

theorem key_mem_allKeys {edges : List (Cell × Cell)} {a b : Cell}
    (h : b ∈ adjOf edges a) :
    edgeKey a b ∈ edges.map (fun e => edgeKey e.1 e.2) := by
  rcases mem_adjOf.mp h with he | he
  · exact List.mem_map.mpr ⟨(a, b), he, rfl⟩
  · exact List.mem_map.mpr ⟨(b, a), he, (edgeKey_comm b a)⟩

end Mazemas
namespace Mazemas

/-- A stitched segment: consecutive adjacent edges walking through degree-2
nodes, ending at a node of degree ≠ 2. -/
inductive IsChain (edges : List (Cell × Cell)) : Cell → Cell → List (Cell × Cell) → Prop where
  | last (curr next : Cell) (hmem : next ∈ adjOf edges curr)
      (hdeg : (adjOf edges next).length ≠ 2) : IsChain edges curr next [(curr, next)]
  | cons (curr next other : Cell) (rest : List (Cell × Cell))
      (hmem : next ∈ adjOf edges curr)
      (hdeg : (adjOf edges next).length = 2)
      (hoth : other ∈ adjOf edges next) (hne : other ≠ curr)
      (htail : IsChain edges next other rest) :
      IsChain edges curr next ((curr, next) :: rest)

theorem otherNbr_mem {edges : List (Cell × Cell)} {x y z : Cell}
    (h : OtherNbr edges x y z) : z ∈ adjOf edges y := by
  rcases h with ⟨hs, _⟩
  rcases hs with h1 | h1 <;> rw [h1] <;> simp

theorem adj_ne {edges : List (Cell × Cell)} {rk : Cell → ℕ}
    (hrk : ∀ e ∈ edges, rk e.1 < rk e.2) {a b : Cell}
    (h : b ∈ adjOf edges a) : a ≠ b := by
  intro hab
  subst hab
  rcases mem_adjOf.mp h with he | he <;>
    (have hx := hrk _ he; simp only at hx; omega)
/-- The invariant carried between walks: the drawn set is exactly the keys of
the recorded steps, is duplicate-free and exit-closed at degree-2 nodes, the
guard never fired, and every recorded segment is a chain from a junction. -/
def StitchInv (edges : List (Cell × Cell))
    (acc : List (Cell × List (Cell × Cell)) × List (Cell × Cell) × Bool) : Prop :=
  acc.2.1 = ((acc.1.flatMap (fun seg => seg.2)).map
      (fun st => edgeKey st.1 st.2)).reverse
    ∧ (∀ x y z, edgeKey x y ∈ acc.2.1 → OtherNbr edges x y z →
        edgeKey y z ∈ acc.2.1)
    ∧ acc.2.1.Nodup
    ∧ acc.2.2 = true
    ∧ (∀ seg ∈ acc.1, (adjOf edges seg.1).length ≠ 2 ∧ seg.1 ∈ nodeIdsOf edges
        ∧ ∃ n, n ∈ adjOf edges seg.1 ∧ IsChain edges seg.1 n seg.2)

theorem walkSeg_spec {edges : List (Cell × Cell)} {rk : Cell → ℕ}
    (hrk : ∀ e ∈ edges, rk e.1 < rk e.2)
    (hnodup : (edges.map (fun e => e.2)).Nodup) :
    ∀ (drawn : List (Cell × Cell)) (curr next : Cell),
    next ∈ adjOf edges curr →
    edgeKey curr next ∉ drawn →
    (∀ x y z, edgeKey x y ∈ drawn → OtherNbr edges x y z →
        edgeKey y z ∈ drawn ∨ (y = curr ∧ z = next)) →
    (∀ z, OtherNbr edges next curr z → edgeKey curr z ∈ drawn) →
    (walkSeg edges curr next drawn).2.1
        = ((walkSeg edges curr next drawn).1.map
            (fun st => edgeKey st.1 st.2)).reverse ++ drawn
      ∧ (∀ x y z, edgeKey x y ∈ (walkSeg edges curr next drawn).2.1 →
          OtherNbr edges x y z → edgeKey y z ∈ (walkSeg edges curr next drawn).2.1)
      ∧ (walkSeg edges curr next drawn).2.2 = true
      ∧ IsChain edges curr next (walkSeg edges curr next drawn).1
      ∧ (drawn.Nodup → (walkSeg edges curr next drawn).2.1.Nodup) := by
  have main : ∀ (N : ℕ) (drawn : List (Cell × Cell)) (curr next : Cell),
      freshCount edges drawn ≤ N →
      next ∈ adjOf edges curr →
      edgeKey curr next ∉ drawn →
      (∀ x y z, edgeKey x y ∈ drawn → OtherNbr edges x y z →
          edgeKey y z ∈ drawn ∨ (y = curr ∧ z = next)) →
      (∀ z, OtherNbr edges next curr z → edgeKey curr z ∈ drawn) →
      (walkSeg edges curr next drawn).2.1
          = ((walkSeg edges curr next drawn).1.map
              (fun st => edgeKey st.1 st.2)).reverse ++ drawn
        ∧ (∀ x y z, edgeKey x y ∈ (walkSeg edges curr next drawn).2.1 →
            OtherNbr edges x y z → edgeKey y z ∈ (walkSeg edges curr next drawn).2.1)
        ∧ (walkSeg edges curr next drawn).2.2 = true
        ∧ IsChain edges curr next (walkSeg edges curr next drawn).1
        ∧ (drawn.Nodup → (walkSeg edges curr next drawn).2.1.Nodup) := by
    intro N
    induction N with
    | zero =>
      intro drawn curr next hN hadj hfresh _ _
      exfalso
      have hkmem : edgeKey curr next ∈ edges.map (fun e => edgeKey e.1 e.2) :=
        key_mem_allKeys hadj
      have : 0 < freshCount edges drawn := by
        unfold freshCount
        have : edgeKey curr next
            ∈ (edges.map (fun e => edgeKey e.1 e.2)).filter (fun k => decide (k ∉ drawn)) :=
          List.mem_filter.mpr ⟨hkmem, by simpa using hfresh⟩
        exact List.length_pos.mpr (List.ne_nil_of_mem this)
      omega
    | succ N ih =>
      intro drawn curr next hN hadj hfresh hpend hback
      have hkmem : edgeKey curr next ∈ edges.map (fun e => edgeKey e.1 e.2) :=
        key_mem_allKeys hadj
      have hguard : ¬(edgeKey curr next ∈ drawn
          ∨ edgeKey curr next ∉ edges.map (fun e => edgeKey e.1 e.2)) := by
        push_neg
        exact ⟨hfresh, hkmem⟩
      have hnecn : curr ≠ next := adj_ne hrk hadj
      rw [walkSeg, dif_neg hguard]
      by_cases hdeg : (adjOf edges next).length ≠ 2
      · rw [if_pos hdeg]
        refine ⟨by simp, ?_, rfl, IsChain.last curr next hadj hdeg, ?_⟩
        · intro x y z hk ho
          rcases List.mem_cons.mp hk with heq | hmem2
          · rcases edgeKey_inj heq with ⟨rfl, rfl⟩ | ⟨rfl, rfl⟩
            · exact absurd (otherNbr_deg ho) hdeg
            · exact List.mem_cons_of_mem _ (hback z ho)
          · rcases hpend x y z hmem2 ho with hin | ⟨rfl, rfl⟩
            · exact List.mem_cons_of_mem _ hin
            · exact List.mem_cons_self _ _
        · intro hnd
          exact List.nodup_cons.mpr ⟨hfresh, hnd⟩
      · rw [if_neg hdeg]
        rw [not_not] at hdeg
        have hcadj : curr ∈ adjOf edges next := adjOf_symm.mp hadj
        obtain ⟨other, honbr, hfind⟩ := otherNbr_exists hrk hnodup hdeg hcadj
        simp only [hfind]
        have hno : curr ≠ other := honbr.2
        have hnoth : next ≠ other := adj_ne hrk (otherNbr_mem honbr)
        have hfresh2 : edgeKey next other ∉ edgeKey curr next :: drawn := by
          intro hc
          rcases List.mem_cons.mp hc with heq | hmem2
          · rcases edgeKey_inj heq with ⟨h1, h2⟩ | ⟨h1, h2⟩
            · exact hnecn h1.symm
            · exact hno h2.symm
          · have honbr2 : OtherNbr edges other next curr := by
              refine ⟨?_, fun hc2 => hno hc2.symm⟩
              rcases honbr.1 with h1 | h1
              · exact Or.inr h1
              · exact Or.inl h1
            rw [edgeKey_comm] at hmem2
            rcases hpend other next curr hmem2 honbr2 with hin | ⟨h1, h2⟩
            · rw [edgeKey_comm] at hin
              exact hfresh hin
            · exact hnecn h1.symm
        have hmeas : freshCount edges (edgeKey curr next :: drawn) ≤ N := by
          have := freshCount_cons_lt hkmem hfresh
          omega
        have hadj2 : other ∈ adjOf edges next := otherNbr_mem honbr
        have hpend2 : ∀ x y z, edgeKey x y ∈ edgeKey curr next :: drawn →
            OtherNbr edges x y z →
            edgeKey y z ∈ edgeKey curr next :: drawn ∨ (y = next ∧ z = other) := by
          intro x y z hk ho
          rcases List.mem_cons.mp hk with heq | hmem2
          · rcases edgeKey_inj heq with ⟨rfl, rfl⟩ | ⟨rfl, rfl⟩
            · exact Or.inr ⟨rfl, otherNbr_unique ho honbr⟩
            · exact Or.inl (List.mem_cons_of_mem _ (hback z ho))
          · rcases hpend x y z hmem2 ho with hin | ⟨rfl, rfl⟩
            · exact Or.inl (List.mem_cons_of_mem _ hin)
            · exact Or.inl (List.mem_cons_self _ _)
        have hback2 : ∀ z, OtherNbr edges other next z →
            edgeKey next z ∈ edgeKey curr next :: drawn := by
          intro z hz
          have hzc : z = curr := otherNbr_entry hz hcadj hno
          subst hzc
          rw [edgeKey_comm]
          exact List.mem_cons_self _ _
        obtain ⟨c1, c2, c3, c4, c5⟩ :=
          ih (edgeKey curr next :: drawn) next other hmeas hadj2 hfresh2 hpend2 hback2
        refine ⟨?_, c2, c3, ?_, ?_⟩
        · rw [c1]
          simp only [List.map_cons, List.reverse_cons, List.append_assoc,
            List.singleton_append]
        · exact IsChain.cons curr next other _ hadj hdeg hadj2
            (fun hc => hno hc.symm) c4
        · intro hnd
          exact c5 (List.nodup_cons.mpr ⟨hfresh, hnd⟩)
  intro drawn curr next hadj hfresh hpend hback
  exact main (freshCount edges drawn) drawn curr next (le_refl _) hadj hfresh hpend hback

end Mazemas
namespace Mazemas

theorem isChain_head {edges : List (Cell × Cell)} {curr next : Cell}
    {steps : List (Cell × Cell)} (h : IsChain edges curr next steps) :
    (curr, next) ∈ steps := by
  cases h <;> exact List.mem_cons_self _ _

theorem innerFold_spec {edges : List (Cell × Cell)} {rk : Cell → ℕ}
    (hrk : ∀ e ∈ edges, rk e.1 < rk e.2)
    (hnodup : (edges.map (fun e => e.2)).Nodup) (j : Cell)
    (hj : (adjOf edges j).length ≠ 2) (hjid : j ∈ nodeIdsOf edges) :
    ∀ (ns : List Cell) (acc : List (Cell × List (Cell × Cell)) × List (Cell × Cell) × Bool),
    (∀ n ∈ ns, n ∈ adjOf edges j) →
    StitchInv edges acc →
    StitchInv edges (ns.foldl (walkStep edges j) acc)
      ∧ (∀ n ∈ ns, edgeKey j n ∈ (ns.foldl (walkStep edges j) acc).2.1)
      ∧ (∀ k ∈ acc.2.1, k ∈ (ns.foldl (walkStep edges j) acc).2.1) := by
  intro ns
  induction ns with
  | nil =>
    intro acc _ hinv
    exact ⟨hinv, by simp, fun k hk => hk⟩
  | cons n ns ih =>
    intro acc hns hinv
    obtain ⟨inv1, inv2, inv3, inv4, inv5⟩ := hinv
    have hnadj : n ∈ adjOf edges j := hns n (List.mem_cons_self _ _)
    rw [List.foldl_cons]
    by_cases hmem : edgeKey j n ∈ acc.2.1
    · have hstep : walkStep edges j acc n = acc := by
        unfold walkStep
        rw [if_pos hmem]
      rw [hstep]
      obtain ⟨r1, r2, r3⟩ := ih acc (fun x hx => hns x (List.mem_cons_of_mem _ hx))
        ⟨inv1, inv2, inv3, inv4, inv5⟩
      refine ⟨r1, ?_, r3⟩
      intro x hx
      rcases List.mem_cons.mp hx with rfl | hx2
      · exact r3 _ hmem
      · exact r2 x hx2
    · have hstep : walkStep edges j acc n
          = (acc.1 ++ [(j, (walkSeg edges j n acc.2.1).1)],
             (walkSeg edges j n acc.2.1).2.1,
             acc.2.2 && (walkSeg edges j n acc.2.1).2.2) := by
        unfold walkStep
        rw [if_neg hmem]
      obtain ⟨c1, c2, c3, c4, c5⟩ := walkSeg_spec hrk hnodup acc.2.1 j n hnadj hmem
        (fun x y z hk ho => Or.inl (inv2 x y z hk ho))
        (fun z hz => absurd (otherNbr_deg hz) hj)
      have hkeymem : edgeKey j n ∈ (walkSeg edges j n acc.2.1).2.1 := by
        rw [c1]
        refine List.mem_append.mpr (Or.inl ?_)
        rw [List.mem_reverse]
        exact List.mem_map.mpr ⟨(j, n), isChain_head c4, rfl⟩
      have hsub : ∀ k ∈ acc.2.1, k ∈ (walkSeg edges j n acc.2.1).2.1 := by
        intro k hk
        rw [c1]
        exact List.mem_append.mpr (Or.inr hk)
      have hinv2 : StitchInv edges
          (acc.1 ++ [(j, (walkSeg edges j n acc.2.1).1)],
           (walkSeg edges j n acc.2.1).2.1,
           acc.2.2 && (walkSeg edges j n acc.2.1).2.2) := by
        refine ⟨?_, c2, c5 inv3, ?_, ?_⟩
        · show (walkSeg edges j n acc.2.1).2.1 = _
          rw [c1, inv1]
          simp only [List.flatMap_append, List.flatMap_cons, List.flatMap_nil,
            List.append_nil, List.map_append, List.reverse_append]
        · show (acc.2.2 && (walkSeg edges j n acc.2.1).2.2) = true
          rw [inv4, c3]
          rfl
        · intro seg hseg
          rcases List.mem_append.mp hseg with hs | hs
          · exact inv5 seg hs
          · rcases List.mem_singleton.mp hs with rfl
            exact ⟨hj, hjid, n, hnadj, c4⟩
      rw [hstep]
      obtain ⟨r1, r2, r3⟩ := ih _ (fun x hx => hns x (List.mem_cons_of_mem _ hx)) hinv2
      refine ⟨r1, ?_, ?_⟩
      · intro x hx
        rcases List.mem_cons.mp hx with rfl | hx2
        · exact r3 _ hkeymem
        · exact r2 x hx2
      · intro k hk
        exact r3 _ (hsub k hk)

end Mazemas
namespace Mazemas

theorem outerFold_spec {edges : List (Cell × Cell)} {rk : Cell → ℕ}
    (hrk : ∀ e ∈ edges, rk e.1 < rk e.2)
    (hnodup : (edges.map (fun e => e.2)).Nodup) :
    ∀ (js : List Cell) (acc : List (Cell × List (Cell × Cell)) × List (Cell × Cell) × Bool),
    (∀ j ∈ js, j ∈ junctionsOf edges) →
    StitchInv edges acc →
    StitchInv edges (js.foldl (fun a j => (adjOf edges j).foldl (walkStep edges j) a) acc)
      ∧ (∀ j ∈ js, ∀ n ∈ adjOf edges j,
          edgeKey j n
            ∈ (js.foldl (fun a j => (adjOf edges j).foldl (walkStep edges j) a) acc).2.1)
      ∧ (∀ k ∈ acc.2.1,
          k ∈ (js.foldl (fun a j => (adjOf edges j).foldl (walkStep edges j) a) acc).2.1) := by
  intro js
  induction js with
  | nil =>
    intro acc _ hinv
    exact ⟨hinv, by simp, fun k hk => hk⟩
  | cons j js ih =>
    intro acc hjs hinv
    have hjmem := hjs j (List.mem_cons_self _ _)
    have hjfacts := List.mem_filter.mp hjmem
    have hjid : j ∈ nodeIdsOf edges := hjfacts.1
    have hjdeg : (adjOf edges j).length ≠ 2 := by
      have := hjfacts.2
      simpa using this
    rw [List.foldl_cons]
    obtain ⟨m1, m2, m3⟩ := innerFold_spec hrk hnodup j hjdeg hjid (adjOf edges j)
      acc (fun n hn => hn) hinv
    obtain ⟨r1, r2, r3⟩ := ih _ (fun x hx => hjs x (List.mem_cons_of_mem _ hx)) m1
    refine ⟨r1, ?_, fun k hk => r3 _ (m3 k hk)⟩
    intro x hx n hn
    rcases List.mem_cons.mp hx with rfl | hx2
    · exact r3 _ (m2 n hn)
    · exact r2 x hx2 n hn

theorem traceSegs_spec {edges : List (Cell × Cell)} {rk : Cell → ℕ}
    (hrk : ∀ e ∈ edges, rk e.1 < rk e.2)
    (hnodup : (edges.map (fun e => e.2)).Nodup) :
    StitchInv edges (traceSegs edges)
      ∧ (∀ j ∈ junctionsOf edges, ∀ n ∈ adjOf edges j,
          edgeKey j n ∈ (traceSegs edges).2.1) := by
  have hinit : StitchInv edges (([], [], true) :
      List (Cell × List (Cell × Cell)) × List (Cell × Cell) × Bool) := by
    refine ⟨rfl, ?_, List.nodup_nil, rfl, ?_⟩
    · intro x y z hk
      simp at hk
    · intro seg hseg
      simp at hseg
  obtain ⟨r1, r2, _⟩ := outerFold_spec hrk hnodup (junctionsOf edges) ([], [], true)
    (fun j hj => hj) hinit
  exact ⟨r1, r2⟩

end Mazemas
namespace Mazemas

theorem edges_injOn_child {edges : List (Cell × Cell)}
    (hnodup : (edges.map (fun e => e.2)).Nodup) :
    ∀ e1 ∈ edges, ∀ e2 ∈ edges, e1.2 = e2.2 → e1 = e2 := by
  intro e1 h1 e2 h2 h
  exact List.inj_on_of_nodup_map hnodup h1 h2 h

theorem stitch_covers {edges : List (Cell × Cell)} {rk : Cell → ℕ}
    (hrk : ∀ e ∈ edges, rk e.1 < rk e.2)
    (hnodup : (edges.map (fun e => e.2)).Nodup) :
    ∀ e ∈ edges, edgeKey e.1 e.2 ∈ (traceSegs edges).2.1 := by
  obtain ⟨⟨_, hclosed, _, _, _⟩, hinc⟩ := traceSegs_spec hrk hnodup
  have main : ∀ (N : ℕ) (e : Cell × Cell), e ∈ edges →
      (edges.filter (fun f => decide (rk e.2 < rk f.2))).length < N →
      edgeKey e.1 e.2 ∈ (traceSegs edges).2.1 := by
    intro N
    induction N with
    | zero =>
      intro e he hm
      omega
    | succ N ih =>
      intro e he hm
      have hid : e.2 ∈ nodeIdsOf edges := mem_nodeIdsOf.mpr ⟨e, he, Or.inr rfl⟩
      have hp : e.1 ∈ adjOf edges e.2 :=
        mem_adjOf.mpr (Or.inr (by rcases e with ⟨p, c⟩; exact he))
      by_cases hdeg : (adjOf edges e.2).length ≠ 2
      · have hjun : e.2 ∈ junctionsOf edges :=
          List.mem_filter.mpr ⟨hid, by simpa using hdeg⟩
        have := hinc e.2 hjun e.1 hp
        rw [edgeKey_comm] at this
        exact this
      · rw [not_not] at hdeg
        obtain ⟨z, honbr, _⟩ := otherNbr_exists hrk hnodup hdeg hp
        have hzadj : z ∈ adjOf edges e.2 := otherNbr_mem honbr
        have hze : (e.2, z) ∈ edges := by
          rcases mem_adjOf.mp hzadj with h1 | h1
          · exact h1
          · exfalso
            have heq := edges_injOn_child hnodup (z, e.2) h1 e he rfl
            have : z = e.1 := by
              rw [← heq]
            exact honbr.2 this.symm
        have hrkz : rk e.2 < rk z := by
          have := hrk _ hze
          simpa using this
        have hmz : (edges.filter (fun f => decide (rk z < rk f.2))).length
            < (edges.filter (fun f => decide (rk e.2 < rk f.2))).length := by
          refine filter_length_lt _ _ _ ?_ (e.2, z) hze (by simpa using hrkz) ?_
          · intro x hx h
            simp only [decide_eq_true_eq] at h ⊢
            omega
          · simp
        have hkey2 : edgeKey e.2 z ∈ (traceSegs edges).2.1 := by
          have := ih (e.2, z) hze (by simp only; omega)
          simpa using this
        have honbr2 : OtherNbr edges z e.2 e.1 := by
          refine ⟨?_, fun hc => honbr.2 hc.symm⟩
          rcases honbr.1 with h1 | h1
          · exact Or.inr h1
          · exact Or.inl h1
        have := hclosed z e.2 e.1 (by rw [edgeKey_comm]; exact hkey2) honbr2
        rw [edgeKey_comm] at this
        exact this
  intro e he
  exact main ((edges.filter (fun f => decide (rk e.2 < rk f.2))).length + 1) e he
    (Nat.lt_succ_self _)

end Mazemas

namespace Mazemas

/-- One emitted drawing command for the step `curr → next` (source lines
355–366): a straight line on a ring change, otherwise an arc at radius
`curr.r * stepSize` whose sweep flag is 1 exactly when the while-loop
normalized angular delta is positive. -/
noncomputable def cmdOf (theta : Cell → ℝ) (s : ℚ) (curr next : Cell) : PathCmd :=
  if curr.1 ≠ next.1 then PathCmd.line next
  else
    PathCmd.arc ((curr.1 : ℝ) * (s : ℝ))
      (if 0 < normalizeTheta (theta next - theta curr) then true else false) next

/-- The stitched output (source lines 340–385): one command list per
segment, `M` at the starting junction then one command per walked edge. -/
noncomputable def pathCommandsOf (theta : Cell → ℝ) (s : ℚ)
    (edges : List (Cell × Cell)) : List (List PathCmd) :=
  (traceSegs edges).1.map (fun seg =>
    PathCmd.move seg.1 :: seg.2.map (fun st => cmdOf theta s st.1 st.2))

/-- Every recorded edge is the reverse of a parent link, and the recorded
children are the parent keys in visit order. -/
theorem genEdges_parent (counts : List ℕ) (bp iw d : ℚ) (str : ℕ → ℚ) :
    (∀ e ∈ (genLoop counts bp iw d str initState).edges,
        (e.2, e.1) ∈ (genLoop counts bp iw d str initState).parent)
      ∧ (genLoop counts bp iw d str initState).edges.map (fun e => e.2)
          = ((genLoop counts bp iw d str initState).parent.map Prod.fst).reverse := by
  exact @genLoop_invariant counts bp iw d str
    (fun s => (∀ e ∈ s.edges, (e.2, e.1) ∈ s.parent)
      ∧ s.edges.map (fun e => e.2) = (s.parent.map Prod.fst).reverse)
    (fun s hs hP => by
      rcases genStep_cases counts bp iw d str s hs with
        ⟨idx, hidx, hnb, heq⟩ | ⟨idx, chosen, k', hidx, hgn, hnv, heq⟩
      · rw [heq]
        exact hP
      · rw [heq]
        refine ⟨?_, ?_⟩
        · intro e he
          rcases List.mem_append.mp he with h1 | h1
          · exact List.mem_cons_of_mem _ (hP.1 e h1)
          · rcases List.mem_singleton.mp h1 with rfl
            exact List.mem_cons_self _ _
        · simp only [List.map_append, List.map_cons, List.map_nil, hP.2,
            List.reverse_cons])
    initState ⟨by simp [initState], by simp [initState]⟩

/-- The generated spanning tree satisfies the stitching hypotheses: parent
rank strictly below child rank on every edge, and no node is the child of
two edges. -/
theorem genEdges_tree (counts : List ℕ) (d : ℚ) (str : ℕ → ℚ) :
    (∀ e ∈ (runGeneration counts d str).edges,
        rankOf (runGeneration counts d str) e.1
          < rankOf (runGeneration counts d str) e.2)
      ∧ ((runGeneration counts d str).edges.map (fun e => e.2)).Nodup := by
  have inv := genInv_runGeneration counts d str
  have hep := genEdges_parent counts (0.02 + d * 0.08) (500 - d * 60) d str
  constructor
  · intro e he
    have hmem : (e.2, e.1) ∈ (runGeneration counts d str).parent := hep.1 e he
    exact (inv.parent_ok _ hmem).2
  · have hkeys : ((runGeneration counts d str).parent.map Prod.fst).Nodup := by
      have hv := inv.nodup
      rw [inv.visited_eq] at hv
      exact hv.of_append_left
    rw [show (runGeneration counts d str).edges
        = (genLoop counts (0.02 + d * 0.08) (500 - d * 60) d str initState).edges
      from rfl, hep.2]
    exact List.nodup_reverse.mpr hkeys

/-- C8: the stitched corridor path covers every spanning-tree edge exactly
once.  For the tree produced by the generation loop: each emitted segment is
`M` at a junction (a node of degree ≠ 2 of the adjacency built from the
edges) followed by one command per edge — a line when the ring index changes,
otherwise an arc of radius `ring index × stepSize` whose sweep flag is the
sign of the normalized angular delta — walking through degree-2 nodes and
stopping at the first node of degree ≠ 2 (junction or leaf); the drawn-edge
set is exactly the multiset of edges of all segments with no duplicate, and
every tree edge is drawn; the well-foundedness guard added to the source's
unguarded `while (true)` never fires. -/
theorem claim_C8_stitching_covers_tree_edges_once (theta : Cell → ℝ) (sq : ℚ)
    (counts : List ℕ) (d : ℚ) (str : ℕ → ℚ) :
    (∀ curr next : Cell,
        (curr.1 ≠ next.1 → cmdOf theta sq curr next = PathCmd.line next)
        ∧ (curr.1 = next.1 → cmdOf theta sq curr next
            = PathCmd.arc ((curr.1 : ℝ) * (sq : ℝ))
                (if 0 < normalizeTheta (theta next - theta curr) then true
                 else false) next))
    ∧ (pathCommandsOf theta sq (runGeneration counts d str).edges
        = (traceSegs (runGeneration counts d str).edges).1.map (fun seg =>
            PathCmd.move seg.1 :: seg.2.map (fun st => cmdOf theta sq st.1 st.2)))
    ∧ (∀ seg ∈ (traceSegs (runGeneration counts d str).edges).1,
        (adjOf (runGeneration counts d str).edges seg.1).length ≠ 2
        ∧ seg.1 ∈ nodeIdsOf (runGeneration counts d str).edges
        ∧ ∃ n, n ∈ adjOf (runGeneration counts d str).edges seg.1
            ∧ IsChain (runGeneration counts d str).edges seg.1 n seg.2)
    ∧ ((traceSegs (runGeneration counts d str).edges).2.1
        = (((traceSegs (runGeneration counts d str).edges).1.flatMap
              (fun seg => seg.2)).map (fun st => edgeKey st.1 st.2)).reverse)
    ∧ (traceSegs (runGeneration counts d str).edges).2.1.Nodup
    ∧ (∀ e ∈ (runGeneration counts d str).edges,
        edgeKey e.1 e.2 ∈ (traceSegs (runGeneration counts d str).edges).2.1)
    ∧ (traceSegs (runGeneration counts d str).edges).2.2 = true := by
  obtain ⟨hrk, hnodup⟩ := genEdges_tree counts d str
  obtain ⟨⟨i1, i2, i3, i4, i5⟩, hinc⟩ := traceSegs_spec hrk hnodup
  refine ⟨?_, rfl, i5, i1, i3, stitch_covers hrk hnodup, i4⟩
  intro curr next
  constructor
  · intro h
    unfold cmdOf
    rw [if_pos h]
  · intro h
    unfold cmdOf
    rw [if_neg (by simpa using h)]

end Mazemas
